import Mathlib

/-! # Shallow embedding of magic_square.c

The C program builds an N×N grid (`create_square`), fills it (`fill_square`),
prints it (`print_square`) and releases it (`free_square`).

Modelling conventions.
* A C `int` is a Lean `Int`. Sizes are taken in the range where
  `square_size * square_size` is representable, so no wrap-around is modelled.
* The contents reachable through `int **arr` are a `Grid`, a list of rows.
  An access `arr[row][column]` outside the stored rows and cells is undefined
  in C and is the outcome `Run.fault` here.
* The `while` loop of `fill_square` may run forever; it is given a step bound
  (`fuel`, the number of times its condition may be evaluated in one scan) and
  the outcome `Run.timeout` when the bound is exhausted.
* `malloc`, `calloc` and `free` are recorded in a log of memory events; every
  allocation is assumed to succeed and yields a fresh block number.
* `fill_square_log` is `fill_square` with every read and write of
  `arr[row][column]` recorded, pass by pass; `fill_square_log_result` states
  that both compute the same outcome.
-/

namespace MagicSquare

/-- Contents of the square: `arr[i][j]` is cell `j` of row `i`. -/
abbrev Grid := List (List Int)

/-- Outcome of running a piece of the program. -/
inductive Run (α : Type) where
  | done (a : α)
  | fault
  | timeout
  deriving DecidableEq, Repr

/-- Read of `arr[row][column]`; `none` when the access is out of range. -/
def readCell (arr : Grid) (row column : Int) : Option Int :=
  if row < 0 ∨ column < 0 then none
  else
    match arr.get? row.toNat with
    | none => none
    | some line => line.get? column.toNat

/-- Write `arr[row][column] = v`; `none` when the access is out of range. -/
def writeCell (arr : Grid) (row column : Int) (v : Int) : Option Grid :=
  if row < 0 ∨ column < 0 then none
  else
    match arr.get? row.toNat with
    | none => none
    | some line =>
      if column.toNat < line.length then
        some (arr.set row.toNat (line.set column.toNat v))
      else none

/-- Source `fix_row_index`: `if (*index < 0) *index = square_size - 1;` -/
def fix_row_index (index square_size : Int) : Int :=
  if index < 0 then square_size - 1 else index

/-- Source `fix_column_index`: `if (*index >= square_size) *index = 0;` -/
def fix_column_index (index square_size : Int) : Int :=
  if index ≥ square_size then 0 else index

/-- The collision scan of `fill_square`:
`while (arr[row][column] != 0) { row--; fix_row_index(&row, square_size); }`.
Returns the row at which the loop exits. `fuel` bounds the number of
evaluations of the loop condition. -/
def scan (arr : Grid) (square_size column : Int) : Nat → Int → Run Int
  | 0, _ => Run.timeout
  | fuel + 1, row =>
    match readCell arr row column with
    | none => Run.fault
    | some v =>
      if v ≠ 0 then scan arr square_size column fuel (fix_row_index (row - 1) square_size)
      else Run.done row

/-- The `for` loop of `fill_square`, with `count` iterations left to run, the
loop variable at `i` and the cursor at `(row, column)`. -/
def fill_loop (square_size : Int) (fuel : Nat) : Nat → Int → Grid → Int → Int → Run Grid
  | 0, _, arr, _, _ => Run.done arr
  | count + 1, i, arr, row, column =>
    let row1 := fix_row_index row square_size
    let column1 := fix_column_index column square_size
    match scan arr square_size column1 fuel row1 with
    | Run.timeout => Run.timeout
    | Run.fault => Run.fault
    | Run.done row2 =>
      match writeCell arr row2 column1 i with
      | none => Run.fault
      | some arr1 => fill_loop square_size fuel count (i + 1) arr1 (row2 - 1) (column1 + 1)

/-- Source `fill_square`: the cursor starts at `row = 0`, `column = square_size / 2`
(C division, truncating) and `i` runs from `1` to `square_size * square_size`. -/
def fill_square (fuel : Nat) (arr : Grid) (square_size : Int) : Run Grid :=
  fill_loop square_size fuel (square_size * square_size).toNat 1 arr 0 (Int.tdiv square_size 2)

/-- One call into the allocator. Blocks are numbered in order of allocation. -/
inductive MemEvent where
  /-- Block returned by `malloc(count * sizeof(int *))`. -/
  | malloc (block : Nat) (count : Int)
  /-- Block returned by `calloc(count, sizeof(int))`. -/
  | calloc (block : Nat) (count : Int)
  /-- Call `free(block)`. -/
  | free (block : Nat)
  deriving DecidableEq, Repr

/-- Allocator calls made so far, oldest first. -/
abbrev MemLog := List MemEvent

/-- The value `int **arr`: the block holding the row pointers, the row blocks
`arr[0], arr[1], ...` stored in it so far, and the cells of those rows. -/
structure Square where
  base : Nat
  rows : List Nat
  cells : Grid
  deriving DecidableEq, Repr

/-- The loop of `create_square`: `arr[i] = (int *)calloc(square_size, sizeof(int));`
with `count` iterations left. The loop assigns `arr[0]`, `arr[1]`, ... in
order, so each new row is appended. -/
def create_loop (square_size : Int) : Nat → Square → MemLog → Square × MemLog
  | 0, sq, log => (sq, log)
  | count + 1, sq, log =>
    create_loop square_size count
      { sq with rows := sq.rows ++ [log.length],
                cells := sq.cells ++ [List.replicate square_size.toNat 0] }
      (log ++ [MemEvent.calloc log.length square_size])

/-- Source `create_square`: one `malloc` for the row pointers, then one `calloc` per
row for `i = 0 .. square_size - 1`. -/
def create_square (square_size : Int) (log : MemLog) : Square × MemLog :=
  create_loop square_size square_size.toNat
    { base := log.length, rows := [], cells := [] }
    (log ++ [MemEvent.malloc log.length square_size])

/-- The loop of `free_square`: `free(arr[i]);` from index `i`, with `count`
iterations left. -/
def free_loop (sq : Square) : Nat → Nat → MemLog → Run MemLog
  | 0, _, log => Run.done log
  | count + 1, i, log =>
    match sq.rows.get? i with
    | none => Run.fault
    | some block => free_loop sq count (i + 1) (log ++ [MemEvent.free block])

/-- Source `free_square`: `for (int i = 0; i < square_size; i++) free(arr[i]);` -/
def free_square (sq : Square) (square_size : Int) (log : MemLog) : Run MemLog :=
  free_loop sq square_size.toNat 0 log

/-- Text written by `printf("[%d] ", v)`. -/
def printCell (v : Int) : String :=
  "[" ++ toString v ++ "] "

/-- Inner loop of `print_square` over the columns `j` of row `i`, appending to
the text `out` written so far. -/
def print_row (arr : Grid) (i : Int) : Nat → Int → String → Run String
  | 0, _, out => Run.done out
  | count + 1, j, out =>
    match readCell arr i j with
    | none => Run.fault
    | some v => print_row arr i count (j + 1) (out ++ printCell v)

/-- Outer loop of `print_square` over the rows `i`; each row is followed by
`printf("\n")`. -/
def print_rows (arr : Grid) (square_size : Int) : Nat → Int → String → Run String
  | 0, _, out => Run.done out
  | count + 1, i, out =>
    match print_row arr i square_size.toNat 0 out with
    | Run.done out1 => print_rows arr square_size count (i + 1) (out1 ++ "\n")
    | Run.fault => Run.fault
    | Run.timeout => Run.timeout

/-- Source `print_square`: all rows, then a final `printf("\n")`. -/
def print_square (arr : Grid) (square_size : Int) : Run String :=
  match print_rows arr square_size square_size.toNat 0 "" with
  | Run.done out => Run.done (out ++ "\n")
  | Run.fault => Run.fault
  | Run.timeout => Run.timeout

/-- What `main` leaves behind: the text on standard output and the allocator log. -/
structure Effects where
  stdout : String
  mem : MemLog
  deriving DecidableEq, Repr

/-- Source `main` on the integer `square_size` read by `scanf`: prompt, create, fill,
print, free. -/
def main (fuel : Nat) (square_size : Int) : Run Effects :=
  let created := create_square square_size []
  match fill_square fuel created.1.cells square_size with
  | Run.timeout => Run.timeout
  | Run.fault => Run.fault
  | Run.done cells =>
    match print_square cells square_size with
    | Run.timeout => Run.timeout
    | Run.fault => Run.fault
    | Run.done text =>
      match free_square created.1 square_size created.2 with
      | Run.timeout => Run.timeout
      | Run.fault => Run.fault
      | Run.done log =>
        Run.done { stdout := "Enter square size: " ++ text, mem := log }

/-! ## Closed form of the fill -/

/-- Residue `(c - N / 2) mod N`: the position of column `c` counted from the
middle column. -/
def colShift (N c : Nat) : Nat :=
  (c + (N - N / 2)) % N

/-- Residue `(-(r + j)) mod N`. -/
def rowCycle (N r j : Nat) : Nat :=
  (N - (r + j) % N) % N

/-- Row in which the value `m + 1` is stored. -/
def posRow (N m : Nat) : Nat :=
  rowCycle N (m / N) (m % N)

/-- Column in which the value `m + 1` is stored. -/
def posCol (N m : Nat) : Nat :=
  (N / 2 + m % N) % N

/-- Number of placements that precede the one into cell `(r, c)`. -/
def orderOf (N r c : Nat) : Nat :=
  rowCycle N r (colShift N c) * N + colShift N c

/-- Grid of `N` rows of `N` cells in which cell `(r, c)` holds `f r c`. -/
def tabulate (N : Nat) (f : Nat → Nat → Int) : Grid :=
  (List.range N).map fun r => (List.range N).map fun c => f r c

/-- Grid in which exactly the first `m` placements have been made. -/
def stage (N m : Nat) : Grid :=
  tabulate N fun r c => if orderOf N r c < m then ((orderOf N r c + 1 : Nat) : Int) else 0

/-- Grid in which cell `(r, c)` holds `orderOf N r c + 1`. -/
def closedForm (N : Nat) : Grid :=
  tabulate N fun r c => ((orderOf N r c + 1 : Nat) : Int)

/-! ## Properties named by the specification -/

/-- Text of one row in the specification's words: every cell as `[`, its
decimal value, `]` and a space, then one line break. -/
def rowText (line : List Int) : String :=
  String.join (line.map fun v => "[" ++ toString v ++ "] ") ++ "\n"

/-- Text of a grid in the specification's words: the rows in order, then one
more line break. -/
def gridText (g : Grid) : String :=
  String.join (g.map rowText) ++ "\n"

/-- Sum of row `r`. -/
def rowSum (g : Grid) (r : Nat) : Int :=
  (g.getD r []).sum

/-- Sum of column `c`. -/
def colSum (g : Grid) (c : Nat) : Int :=
  (g.map fun line => line.getD c 0).sum

/-- Sum of the diagonal `r = c`. -/
def diagSum (g : Grid) : Int :=
  ((List.range g.length).map fun i => (g.getD i []).getD i 0).sum

/-- Sum of the anti-diagonal `r + c = N - 1`. -/
def antiDiagSum (g : Grid) : Int :=
  ((List.range g.length).map fun i => (g.getD i []).getD (g.length - 1 - i) 0).sum

/-- Magic constant `N (N² + 1) / 2`. -/
def magicConstant (N : Nat) : Int :=
  (N : Int) * ((N : Int) * (N : Int) + 1) / 2

/-- Every integer of `[1, N²]` is held by exactly one cell of `g`. -/
def EachValueOnce (N : Nat) (g : Grid) : Prop :=
  ∀ v : Int, 1 ≤ v → v ≤ (N : Int) * (N : Int) →
    ∃! p : Nat × Nat, p.1 < N ∧ p.2 < N ∧ readCell g (p.1 : Int) (p.2 : Int) = some v

/-- Cursor of `fill_square` at the top of the loop body that places `m + 1`,
before it is normalised: the initial cursor, or the cell of the value `m`
moved one row up and one column right. -/
def Cursor (N m : Nat) (row column : Int) : Prop :=
  (m = 0 ∧ row = 0 ∧ column = Int.tdiv (N : Int) 2) ∨
  (0 < m ∧ row = (posRow N (m - 1) : Int) - 1 ∧ column = (posCol N (m - 1) : Int) + 1)

/-! ## The fill with its accesses recorded -/

/-- One access to `arr[row][column]` made by `fill_square`. The field `held`
is the content of the cell just before the access, `none` when the cell lies
outside the grid. -/
inductive Access where
  /-- Evaluation of the loop condition `arr[row][column] != 0`. -/
  | read (row column : Int) (held : Option Int)
  /-- Assignment `arr[row][column] = value`. -/
  | write (row column : Int) (held : Option Int) (value : Int)
  deriving DecidableEq, Repr

/-- Row index of an access. -/
def Access.row : Access → Int
  | Access.read row _ _ => row
  | Access.write row _ _ _ => row

/-- Column index of an access. -/
def Access.column : Access → Int
  | Access.read _ column _ => column
  | Access.write _ column _ _ => column

/-- Whether the access is an assignment. -/
def Access.isWrite : Access → Bool
  | Access.read _ _ _ => false
  | Access.write _ _ _ _ => true

/-- Whether the access is a loop-condition read that found the cell occupied,
so that the body `row--; fix_row_index(&row, square_size);` ran after it. -/
def Access.isCollision : Access → Bool
  | Access.read _ _ (some v) => decide (v ≠ 0)
  | _ => false

/-- The collision scan as in `scan`, returning also the reads it made. -/
def scan_log (arr : Grid) (square_size column : Int) : Nat → Int → List Access × Run Int
  | 0, _ => ([], Run.timeout)
  | fuel + 1, row =>
    match readCell arr row column with
    | none => ([Access.read row column none], Run.fault)
    | some v =>
      if v ≠ 0 then
        let rest := scan_log arr square_size column fuel (fix_row_index (row - 1) square_size)
        (Access.read row column (some v) :: rest.1, rest.2)
      else ([Access.read row column (some v)], Run.done row)

/-- The `for` loop as in `fill_loop`, returning also, for every pass of the
loop body that was started, the accesses of that pass in order. -/
def fill_loop_log (square_size : Int) (fuel : Nat) :
    Nat → Int → Grid → Int → Int → List (List Access) × Run Grid
  | 0, _, arr, _, _ => ([], Run.done arr)
  | count + 1, i, arr, row, column =>
    let row1 := fix_row_index row square_size
    let column1 := fix_column_index column square_size
    let scanned := scan_log arr square_size column1 fuel row1
    match scanned.2 with
    | Run.timeout => ([scanned.1], Run.timeout)
    | Run.fault => ([scanned.1], Run.fault)
    | Run.done row2 =>
      let pass := scanned.1 ++ [Access.write row2 column1 (readCell arr row2 column1) i]
      match writeCell arr row2 column1 i with
      | none => ([pass], Run.fault)
      | some arr1 =>
        let rest := fill_loop_log square_size fuel count (i + 1) arr1 (row2 - 1) (column1 + 1)
        (pass :: rest.1, rest.2)

/-- Source `fill_square` as in `fill_square`, returning also the accesses of
every pass of the loop body. -/
def fill_square_log (fuel : Nat) (arr : Grid) (square_size : Int) :
    List (List Access) × Run Grid :=
  fill_loop_log square_size fuel (square_size * square_size).toNat 1 arr 0
    (Int.tdiv square_size 2)

/-- Number of times the body of the collision scan ran in one pass. -/
def upwardSteps (pass : List Access) : Nat :=
  pass.countP Access.isCollision

/-- Number of assignments in one pass. -/
def placements (pass : List Access) : Nat :=
  pass.countP Access.isWrite

/-- Grid of `N` rows of `N` cells each. -/
def IsSquare (N : Nat) (g : Grid) : Prop :=
  g.length = N ∧ ∀ ln ∈ g, ln.length = N

/-- Magic square of order `N`: all row sums, all column sums and the two
diagonal sums are one and the same number. -/
def IsMagic (N : Nat) (g : Grid) : Prop :=
  ∃ s : Int, (∀ r, r < N → rowSum g r = s) ∧ (∀ c, c < N → colSum g c = s) ∧
    diagSum g = s ∧ antiDiagSum g = s

/-- Accesses of the pass that places `m + 1` on the fresh grid: when `m` is a
positive multiple of `N`, a read of the occupied cell one row below, holding
`m + 1 - N`; then the read of the free cell and the assignment to it. -/
def passOf (N m : Nat) : List Access :=
  (if 0 < m ∧ m % N = 0 then
      [Access.read (((posRow N m + 1) % N : Nat) : Int) (posCol N m : Int)
        (some ((m + 1 - N : Nat) : Int))]
    else []) ++
  [Access.read (posRow N m : Int) (posCol N m : Int) (some 0),
   Access.write (posRow N m : Int) (posCol N m : Int) (some 0) ((m : Int) + 1)]

/-! ## Arithmetic of the closed form -/

theorem mod_of_lt_two_mul {N x : Nat} (hx : x < 2 * N) :
    x % N = if x < N then x else x - N := by
  split_ifs with h
  · exact Nat.mod_eq_of_lt h
  · rw [Nat.mod_eq_sub_mod (by omega), Nat.mod_eq_of_lt (by omega)]

theorem colShift_eq {N c : Nat} (hc : c < N) :
    colShift N c = if N / 2 ≤ c then c - N / 2 else c + N - N / 2 := by
  unfold colShift
  rw [mod_of_lt_two_mul (by omega)]
  split_ifs <;> omega

theorem rowCycle_eq {N r j : Nat} (hr : r < N) (hj : j < N) :
    rowCycle N r j =
      if r + j = 0 then 0 else if r + j ≤ N then N - (r + j) else 2 * N - (r + j) := by
  unfold rowCycle
  rw [mod_of_lt_two_mul (show r + j < 2 * N by omega)]
  split_ifs with h1 h2 h3 h4
  · rw [h2]; simp
  · rw [Nat.mod_eq_of_lt (by omega)]
  · omega
  · omega
  · have : r + j = N := by omega
    rw [this]; simp
  · rw [Nat.mod_eq_of_lt (by omega)]; omega

theorem posCol_eq {N j : Nat} (hj : j < N) :
    (N / 2 + j) % N = if N / 2 + j < N then N / 2 + j else N / 2 + j - N := by
  rw [mod_of_lt_two_mul (by omega)]

theorem colShift_lt {N c : Nat} (hc : c < N) : colShift N c < N :=
  Nat.mod_lt _ (by omega)

theorem rowCycle_lt {N : Nat} (hN : 0 < N) (r j : Nat) : rowCycle N r j < N :=
  Nat.mod_lt _ hN

theorem posRow_lt {N : Nat} (hN : 0 < N) (m : Nat) : posRow N m < N :=
  rowCycle_lt hN _ _

theorem posCol_lt {N : Nat} (hN : 0 < N) (m : Nat) : posCol N m < N :=
  Nat.mod_lt _ hN

theorem rowCycle_rowCycle {N k j : Nat} (hk : k < N) (hj : j < N) :
    rowCycle N (rowCycle N k j) j = k := by
  have h1 := rowCycle_eq hk hj
  have h2 := rowCycle_eq (rowCycle_lt (by omega) k j) hj
  rw [h2, h1]
  split_ifs <;> omega

theorem colShift_posCol {N j : Nat} (hj : j < N) :
    colShift N ((N / 2 + j) % N) = j := by
  rw [colShift_eq (Nat.mod_lt _ (by omega)), posCol_eq hj]
  split_ifs <;> omega

theorem posCol_colShift {N c : Nat} (hc : c < N) :
    (N / 2 + colShift N c) % N = c := by
  rw [posCol_eq (colShift_lt hc), colShift_eq hc]
  split_ifs <;> omega

theorem orderOf_div {N r c : Nat} (hc : c < N) :
    orderOf N r c / N = rowCycle N r (colShift N c) := by
  unfold orderOf
  rw [Nat.add_comm, Nat.add_mul_div_right _ _ (by omega), Nat.div_eq_of_lt (colShift_lt hc)]
  simp

theorem orderOf_mod {N r c : Nat} (hc : c < N) :
    orderOf N r c % N = colShift N c := by
  unfold orderOf
  rw [Nat.add_comm, Nat.add_mul_mod_self_right, Nat.mod_eq_of_lt (colShift_lt hc)]

theorem orderOf_lt {N r c : Nat} (hc : c < N) : orderOf N r c < N * N := by
  have h1 := rowCycle_lt (show 0 < N by omega) r (colShift N c)
  have h2 := colShift_lt hc
  unfold orderOf
  calc rowCycle N r (colShift N c) * N + colShift N c
      < rowCycle N r (colShift N c) * N + N := by omega
    _ = (rowCycle N r (colShift N c) + 1) * N := by ring
    _ ≤ N * N := Nat.mul_le_mul_right N h1

theorem posRow_orderOf {N r c : Nat} (hr : r < N) (hc : c < N) :
    posRow N (orderOf N r c) = r := by
  unfold posRow
  rw [orderOf_div hc, orderOf_mod hc, rowCycle_rowCycle hr (colShift_lt hc)]

theorem posCol_orderOf {N r c : Nat} (hc : c < N) :
    posCol N (orderOf N r c) = c := by
  unfold posCol
  rw [orderOf_mod hc, posCol_colShift hc]

theorem orderOf_pos {N m : Nat} (hm : m < N * N) :
    orderOf N (posRow N m) (posCol N m) = m := by
  have hN : 0 < N := by
    rcases Nat.eq_zero_or_pos N with h | h
    · subst h; simp at hm
    · exact h
  have hj : m % N < N := Nat.mod_lt _ hN
  have hk : m / N < N := Nat.div_lt_of_lt_mul hm
  unfold orderOf posRow posCol
  rw [colShift_posCol hj, rowCycle_rowCycle hk hj]
  exact Nat.div_add_mod' m N


/-! ## Reading and writing tabulated grids -/

theorem tabulate_congr {N : Nat} {f g : Nat → Nat → Int}
    (h : ∀ r c, r < N → c < N → f r c = g r c) : tabulate N f = tabulate N g := by
  unfold tabulate
  apply List.map_congr_left
  intro r hr
  apply List.map_congr_left
  intro c hc
  exact h r c (List.mem_range.1 hr) (List.mem_range.1 hc)

theorem readCell_tabulate {N : Nat} (f : Nat → Nat → Int) {r c : Nat}
    (hr : r < N) (hc : c < N) :
    readCell (tabulate N f) (r : Int) (c : Int) = some (f r c) := by
  have h1 : ¬ ((r : Int) < 0 ∨ (c : Int) < 0) := by omega
  simp [readCell, tabulate, h1, List.getElem?_range, hr, hc]

theorem writeCell_tabulate {N : Nat} (f : Nat → Nat → Int) {r c : Nat}
    (hr : r < N) (hc : c < N) (v : Int) :
    writeCell (tabulate N f) (r : Int) (c : Int) v =
      some (tabulate N fun r1 c1 => if r1 = r ∧ c1 = c then v else f r1 c1) := by
  have h1 : ¬ ((r : Int) < 0 ∨ (c : Int) < 0) := by omega
  simp only [writeCell, tabulate, h1, if_false, Int.toNat_ofNat, List.get?_eq_getElem?,
    List.getElem?_map, List.getElem?_range hr, Option.map_some', List.length_map,
    List.length_range, hc, if_true, Option.some.injEq]
  apply List.ext_getElem?
  intro i
  rw [List.getElem?_set]
  by_cases hir : r = i
  · subst hir
    simp only [List.length_map, List.length_range, hr, if_true, List.getElem?_map,
      List.getElem?_range hr, Option.map_some', Option.some.injEq, true_and]
    apply List.ext_getElem?
    intro j
    rw [List.getElem?_set]
    by_cases hjc : c = j
    · subst hjc
      simp [hc, List.getElem?_range]
    · by_cases hj : j < N
      · have : ¬ j = c := fun h => hjc h.symm
        simp [hjc, hj, List.getElem?_range, this]
      · have hn : (List.range N)[j]? = none :=
          List.getElem?_eq_none (by simp only [List.length_range]; omega)
        simp [hjc, hn]
  · have : ¬ i = r := fun h => hir h.symm
    by_cases hi : i < N
    · simp [hir, hi, List.getElem?_range, this]
    · have hn : (List.range N)[i]? = none :=
        List.getElem?_eq_none (by simp only [List.length_range]; omega)
      simp [hir, hn]


/-! ## The cursor -/

theorem fix_row_index_rowCycle {N : Nat} (hN : 0 < N) (k j : Nat) :
    fix_row_index ((rowCycle N k j : Int) - 1) (N : Int) = (rowCycle N k (j + 1) : Int) := by
  have hs : (k + j) % N < N := Nat.mod_lt _ hN
  have h1 : (k + (j + 1)) % N = ((k + j) % N + 1) % N := by
    rw [Nat.mod_add_mod]; rfl
  unfold rowCycle fix_row_index
  rw [h1, mod_of_lt_two_mul (show (k + j) % N + 1 < 2 * N by omega),
    mod_of_lt_two_mul (show N - (k + j) % N < 2 * N by omega)]
  generalize (k + j) % N = s at hs
  by_cases h2 : s + 1 < N
  · rw [if_pos h2, Nat.mod_eq_of_lt (show N - (s + 1) < N by omega)]
    split_ifs <;> omega
  · have h3 : s + 1 - N = 0 := by omega
    rw [if_neg h2, h3, Nat.sub_zero, Nat.mod_self]
    split_ifs <;> omega

theorem fix_column_index_succ {N : Nat} (hN : 0 < N) (x : Nat) :
    fix_column_index (((x % N : Nat) : Int) + 1) (N : Int) = (((x + 1) % N : Nat) : Int) := by
  have hs : x % N < N := Nat.mod_lt _ hN
  have h1 : (x + 1) % N = (x % N + 1) % N := by rw [Nat.mod_add_mod]
  unfold fix_column_index
  rw [h1, mod_of_lt_two_mul (show x % N + 1 < 2 * N by omega)]
  generalize x % N = s at hs
  split_ifs <;> omega

theorem succ_div_mod {N : Nat} (hN : 0 < N) (m : Nat) :
    (m % N + 1 < N ∧ (m + 1) / N = m / N ∧ (m + 1) % N = m % N + 1) ∨
    (m % N + 1 = N ∧ (m + 1) / N = m / N + 1 ∧ (m + 1) % N = 0) := by
  have hs : m % N < N := Nat.mod_lt _ hN
  have h0 : m + 1 = N * (m / N) + (m % N + 1) := by
    have := Nat.div_add_mod m N
    omega
  have hd : (m + 1) / N = m / N + (m % N + 1) / N := by
    conv_lhs => rw [h0]
    exact Nat.mul_add_div hN _ _
  have hm : (m + 1) % N = (m % N + 1) % N := by
    conv_lhs => rw [h0]
    exact Nat.mul_add_mod _ _ _
  by_cases h : m % N + 1 < N
  · left
    refine ⟨h, ?_, ?_⟩
    · rw [hd, Nat.div_eq_of_lt h]; rfl
    · rw [hm, Nat.mod_eq_of_lt h]
  · right
    have h2 : m % N + 1 = N := by omega
    refine ⟨h2, ?_, ?_⟩
    · rw [hd, h2, Nat.div_self hN]
    · rw [hm, h2, Nat.mod_self]

theorem posRow_zero {N : Nat} : posRow N 0 = 0 := by
  simp [posRow, rowCycle]

theorem posCol_zero {N : Nat} (hN : 0 < N) : posCol N 0 = N / 2 := by
  unfold posCol
  rw [Nat.zero_mod, Nat.add_zero, Nat.mod_eq_of_lt (by omega)]

/-- Column of the normalised cursor. -/
theorem cursor_column {N m : Nat} (hN : 0 < N) {row column : Int}
    (h : Cursor N m row column) :
    fix_column_index column (N : Int) = (posCol N m : Int) := by
  rcases h with ⟨rfl, -, rfl⟩ | ⟨hm, -, rfl⟩
  · rw [posCol_zero hN, show Int.tdiv (N : Int) 2 = ((N / 2 : Nat) : Int) from
      (Int.ofNat_tdiv N 2).symm]
    unfold fix_column_index
    have : ((N / 2 : Nat) : Int) < (N : Int) := by omega
    simp only [ge_iff_le]
    split_ifs <;> omega
  · obtain ⟨p, rfl⟩ : ∃ p, m = p + 1 := ⟨m - 1, by omega⟩
    simp only [Nat.add_sub_cancel]
    unfold posCol
    rw [fix_column_index_succ hN]
    congr 1
    rw [Nat.add_right_comm (N / 2) (p % N) 1, Nat.add_mod_mod, Nat.add_mod_mod]
    congr 1
    omega

/-- Row of the normalised cursor: either the cell of `m + 1`, still free, or
the cell of `m + 1 - N`, one row below the cell of `m + 1`. -/
theorem cursor_row {N m : Nat} (hN : 0 < N) (hm : m < N * N) {row column : Int}
    (h : Cursor N m row column) :
    fix_row_index row (N : Int) = (posRow N m : Int) ∨
    ∃ R : Nat, R < N ∧ fix_row_index row (N : Int) = (R : Int) ∧
      orderOf N R (posCol N m) < m ∧
      fix_row_index ((R : Int) - 1) (N : Int) = (posRow N m : Int) := by
  rcases h with ⟨rfl, rfl, -⟩ | ⟨hm0, rfl, -⟩
  · left
    rw [posRow_zero]
    simp [fix_row_index]
  · obtain ⟨p, rfl⟩ : ∃ p, m = p + 1 := ⟨m - 1, by omega⟩
    simp only [Nat.add_sub_cancel]
    have hrow : fix_row_index ((posRow N p : Int) - 1) (N : Int)
        = (rowCycle N (p / N) (p % N + 1) : Int) := fix_row_index_rowCycle hN _ _
    rcases succ_div_mod hN p with ⟨-, hd, hmod⟩ | ⟨hj, hd, hmod⟩
    · left
      rw [hrow]
      unfold posRow
      rw [hd, hmod]
    · right
      have hk : p / N + 1 < N := by
        rw [← hd]; exact Nat.div_lt_of_lt_mul hm
      have hR : rowCycle N (p / N) (p % N + 1) = rowCycle N (p / N) 0 := by
        unfold rowCycle
        rw [hj, Nat.add_mod_right]; rfl
      refine ⟨rowCycle N (p / N) 0, rowCycle_lt hN _ _, ?_, ?_, ?_⟩
      · rw [hrow, hR]
      · have hc : colShift N (posCol N (p + 1)) = 0 := by
          unfold posCol
          rw [hmod]
          exact colShift_posCol hN
        unfold orderOf
        rw [hc, rowCycle_rowCycle (by omega) hN]
        have := Nat.div_add_mod p N
        have h2 : N * (p / N) = p / N * N := Nat.mul_comm _ _
        omega
      · rw [fix_row_index_rowCycle hN]
        unfold posRow
        rw [hd, hmod]
        unfold rowCycle
        congr 3


/-! ## One pass of the loop body on a staged grid -/

theorem readCell_stage {N : Nat} (m : Nat) {r c : Nat} (hr : r < N) (hc : c < N) :
    readCell (stage N m) (r : Int) (c : Int) =
      some (if orderOf N r c < m then ((orderOf N r c + 1 : Nat) : Int) else 0) :=
  readCell_tabulate _ hr hc

theorem writeCell_stage {N m : Nat} (hN : 0 < N) (hm : m < N * N) :
    writeCell (stage N m) (posRow N m : Int) (posCol N m : Int) ((m : Int) + 1) =
      some (stage N (m + 1)) := by
  unfold stage
  rw [writeCell_tabulate _ (posRow_lt hN m) (posCol_lt hN m)]
  congr 1
  apply tabulate_congr
  intro r c hr hc
  by_cases h : r = posRow N m ∧ c = posCol N m
  · obtain ⟨rfl, rfl⟩ := h
    simp [orderOf_pos hm]
  · have hne : orderOf N r c ≠ m := by
      intro he
      apply h
      constructor
      · rw [← he, posRow_orderOf hr hc]
      · rw [← he, posCol_orderOf hc]
    rw [if_neg h]
    by_cases h2 : orderOf N r c < m
    · rw [if_pos h2, if_pos (by omega)]
    · rw [if_neg h2, if_neg (by omega)]

theorem scan_free {N m : Nat} {R C : Nat} (hR : R < N) (hC : C < N)
    (h : ¬ orderOf N R C < m) (fuel : Nat) :
    scan (stage N m) (N : Int) (C : Int) (fuel + 1) (R : Int) = Run.done (R : Int) := by
  rw [scan, readCell_stage m hR hC, if_neg h]
  simp

theorem scan_occupied {N m : Nat} {R C : Nat} (hR : R < N) (hC : C < N)
    (h : orderOf N R C < m) (fuel : Nat) :
    scan (stage N m) (N : Int) (C : Int) (fuel + 1) (R : Int) =
      scan (stage N m) (N : Int) (C : Int) fuel (fix_row_index ((R : Int) - 1) (N : Int)) := by
  rw [scan, readCell_stage m hR hC, if_pos h]
  have : (((orderOf N R C + 1 : Nat) : Int)) ≠ 0 := by omega
  simp only [ne_eq, this, not_false_eq_true, if_true]

theorem scan_stage {N m : Nat} (hN : 0 < N) (hm : m < N * N) {row column : Int}
    (h : Cursor N m row column) (fuel : Nat) :
    scan (stage N m) (N : Int) (posCol N m : Int) (fuel + 2) (fix_row_index row (N : Int)) =
      Run.done (posRow N m : Int) := by
  have hfree : ¬ orderOf N (posRow N m) (posCol N m) < m := by
    rw [orderOf_pos hm]; omega
  rcases cursor_row hN hm h with h1 | ⟨R, hR, h1, h2, h3⟩
  · rw [h1]
    exact scan_free (posRow_lt hN m) (posCol_lt hN m) hfree (fuel + 1)
  · rw [h1, scan_occupied hR (posCol_lt hN m) h2, h3]
    exact scan_free (posRow_lt hN m) (posCol_lt hN m) hfree fuel

theorem fill_loop_step {N m : Nat} (hN : 0 < N) (hm : m < N * N) {row column : Int}
    (h : Cursor N m row column) (fuel count : Nat) :
    fill_loop (N : Int) (fuel + 2) (count + 1) ((m : Int) + 1) (stage N m) row column =
      fill_loop (N : Int) (fuel + 2) count ((m : Int) + 1 + 1) (stage N (m + 1))
        ((posRow N m : Int) - 1) ((posCol N m : Int) + 1) := by
  rw [fill_loop]
  simp only [cursor_column hN h, scan_stage hN hm h fuel, writeCell_stage hN hm]

theorem fill_loop_stage {N : Nat} (hN : 0 < N) (fuel : Nat) :
    ∀ (count m : Nat) (row column : Int), m + count = N * N → Cursor N m row column →
      fill_loop (N : Int) (fuel + 2) count ((m : Int) + 1) (stage N m) row column =
        Run.done (stage N (N * N)) := by
  intro count
  induction count with
  | zero =>
    intro m row column hmc _
    have : m = N * N := by omega
    subst this
    rw [fill_loop]
  | succ count ih =>
    intro m row column hmc hcur
    rw [fill_loop_step hN (by omega) hcur]
    have h := ih (m + 1) ((posRow N m : Int) - 1) ((posCol N m : Int) + 1) (by omega)
      (Or.inr ⟨by omega, by simp, by simp⟩)
    rw [← h]
    push_cast
    rfl

theorem stage_full (N : Nat) : stage N (N * N) = closedForm N := by
  unfold stage closedForm
  apply tabulate_congr
  intro r c _ hc
  rw [if_pos (orderOf_lt hc)]

theorem stage_zero (N : Nat) : stage N 0 = List.replicate N (List.replicate N 0) := by
  simp [stage, tabulate]

/-- Closed form of `fill_square` on the zero-filled grid. -/
theorem fill_square_zero {N : Nat} (hN : 0 < N) (fuel : Nat) :
    fill_square (fuel + 2) (List.replicate N (List.replicate N 0)) (N : Int) =
      Run.done (closedForm N) := by
  unfold fill_square
  have h := fill_loop_stage hN fuel (N * N) 0 0 (Int.tdiv (N : Int) 2) (by omega)
    (Or.inl ⟨rfl, rfl, rfl⟩)
  rw [stage_full, stage_zero] at h
  have hc : ((N : Int) * (N : Int)).toNat = N * N := by
    rw [← Int.natCast_mul]; exact Int.toNat_natCast _
  rw [hc]
  simpa using h


/-! ## Allocation and release -/

theorem create_loop_eq (n : Int) :
    ∀ (count : Nat) (sq : Square) (log : MemLog),
      create_loop n count sq log =
        ({ base := sq.base,
           rows := sq.rows ++ (List.range count).map fun i => log.length + i,
           cells := sq.cells ++ List.replicate count (List.replicate n.toNat 0) },
         log ++ (List.range count).map fun i => MemEvent.calloc (log.length + i) n) := by
  intro count
  induction count with
  | zero => intro sq log; simp [create_loop]
  | succ count ih =>
    intro sq log
    rw [create_loop, ih, List.range_succ_eq_map, List.replicate_succ]
    simp only [List.map_cons, List.map_map, List.append_assoc, List.singleton_append,
      List.length_append, List.length_singleton, Nat.add_zero, Prod.mk.injEq, Square.mk.injEq,
      true_and, List.append_cancel_left_eq, List.cons.injEq]
    refine ⟨⟨?_, trivial⟩, ?_⟩
    · apply List.map_congr_left
      intro i _
      simp only [Function.comp]
      omega
    · apply List.map_congr_left
      intro i _
      simp only [Function.comp]
      congr 1
      omega

theorem create_square_eq (n : Int) (log : MemLog) :
    create_square n log =
      ({ base := log.length,
         rows := (List.range n.toNat).map fun i => log.length + 1 + i,
         cells := List.replicate n.toNat (List.replicate n.toNat 0) },
       log ++ MemEvent.malloc log.length n ::
         (List.range n.toNat).map fun i => MemEvent.calloc (log.length + 1 + i) n) := by
  unfold create_square
  rw [create_loop_eq]
  simp

theorem free_loop_eq (sq : Square) :
    ∀ (count i : Nat) (log : MemLog), i + count ≤ sq.rows.length →
      free_loop sq count i log =
        Run.done (log ++ ((sq.rows.drop i).take count).map MemEvent.free) := by
  intro count
  induction count with
  | zero => intro i log _; simp [free_loop]
  | succ count ih =>
    intro i log h
    have hi : i < sq.rows.length := by omega
    rw [free_loop, List.get?_eq_getElem?, List.getElem?_eq_getElem hi]
    simp only
    rw [ih (i + 1) _ (by omega), List.drop_eq_getElem_cons hi]
    simp only [List.take_succ_cons, List.map_cons, List.append_assoc, List.singleton_append]

/-! ## Step bounds -/

theorem scan_fuel_succ (arr : Grid) (n column : Int) :
    ∀ (fuel : Nat) (row r : Int),
      scan arr n column fuel row = Run.done r → scan arr n column (fuel + 1) row = Run.done r := by
  intro fuel
  induction fuel with
  | zero => intro row r h; simp [scan] at h
  | succ fuel ih =>
    intro row r h
    rw [scan] at h ⊢
    cases hc : readCell arr row column with
    | none => rw [hc] at h; simp at h
    | some v =>
      rw [hc] at h
      simp only at h ⊢
      by_cases hv : v ≠ 0
      · rw [if_pos hv] at h ⊢
        exact ih _ _ h
      · rw [if_neg hv] at h ⊢
        exact h

theorem fill_loop_fuel_succ (n : Int) (fuel : Nat) :
    ∀ (count : Nat) (i : Int) (arr : Grid) (row column : Int) (g : Grid),
      fill_loop n fuel count i arr row column = Run.done g →
      fill_loop n (fuel + 1) count i arr row column = Run.done g := by
  intro count
  induction count with
  | zero => intro i arr row column g h; simpa [fill_loop] using h
  | succ count ih =>
    intro i arr row column g h
    rw [fill_loop] at h ⊢
    cases hs : scan arr n (fix_column_index column n) fuel (fix_row_index row n) with
    | timeout => rw [hs] at h; simp at h
    | fault => rw [hs] at h; simp at h
    | done row2 =>
      rw [hs] at h
      rw [scan_fuel_succ _ _ _ _ _ _ hs]
      simp only at h ⊢
      cases hw : writeCell arr row2 (fix_column_index column n) i with
      | none => rw [hw] at h; simp at h
      | some arr1 =>
        rw [hw] at h
        simp only at h ⊢
        exact ih _ _ _ _ _ h

theorem fill_square_fuel_add (arr : Grid) (n : Int) (g : Grid) (fuel : Nat)
    (h : fill_square fuel arr n = Run.done g) :
    ∀ extra : Nat, fill_square (fuel + extra) arr n = Run.done g := by
  intro extra
  induction extra with
  | zero => exact h
  | succ extra ih => exact fill_loop_fuel_succ _ _ _ _ _ _ _ _ ih


/-! ## Printing -/

theorem join_cons (a : String) (l : List String) :
    String.join (a :: l) = a ++ String.join l := by
  apply String.ext
  simp [String.join_eq]

theorem print_row_eq (arr : Grid) (i : Nat) (ln : List Int) (hline : arr[i]? = some ln) :
    ∀ (count j : Nat) (out : String), j + count ≤ ln.length →
      print_row arr (i : Int) count (j : Int) out =
        Run.done (out ++ String.join (((ln.drop j).take count).map printCell)) := by
  intro count
  induction count with
  | zero => intro j out _; simp [print_row, String.join]
  | succ count ih =>
    intro j out h
    have hj : j < ln.length := by omega
    have hread : readCell arr (i : Int) (j : Int) = some ln[j] := by
      have h1 : ¬ ((i : Int) < 0 ∨ (j : Int) < 0) := by omega
      simp [readCell, h1, hline, List.getElem?_eq_getElem hj]
    rw [print_row, hread]
    simp only
    have := ih (j + 1) (out ++ printCell ln[j]) (by omega)
    rw [Nat.cast_add, Nat.cast_one] at this
    rw [this, List.drop_eq_getElem_cons hj]
    simp only [List.take_succ_cons, List.map_cons, join_cons, String.append_assoc]

theorem print_rows_eq (arr : Grid) (N : Nat) (hcols : ∀ line ∈ arr, line.length = N) :
    ∀ (count i : Nat) (out : String), i + count ≤ arr.length →
      print_rows arr (N : Int) count (i : Int) out =
        Run.done (out ++ String.join (((arr.drop i).take count).map rowText)) := by
  intro count
  induction count with
  | zero => intro i out _; simp [print_rows, String.join]
  | succ count ih =>
    intro i out h
    have hi : i < arr.length := by omega
    have hlen : arr[i].length = N := hcols _ (List.getElem_mem _)
    have hrow := print_row_eq arr i arr[i] (List.getElem?_eq_getElem hi) N 0 out (by omega)
    rw [Nat.cast_zero] at hrow
    rw [print_rows, Int.toNat_natCast, hrow]
    simp only
    have := ih (i + 1) (out ++ String.join (((arr[i].drop 0).take N).map printCell) ++ "\n")
      (by omega)
    rw [Nat.cast_add, Nat.cast_one] at this
    rw [this, List.drop_eq_getElem_cons hi]
    simp only [List.take_succ_cons, List.map_cons, join_cons, String.append_assoc, rowText,
      List.drop_zero, ← hlen, List.take_length]
    rfl

theorem print_square_eq (g : Grid) (N : Nat) (hrows : g.length = N)
    (hcols : ∀ line ∈ g, line.length = N) :
    print_square g (N : Int) = Run.done (gridText g) := by
  unfold print_square
  rw [Int.toNat_natCast]
  have := print_rows_eq g N hcols N 0 "" (by omega)
  rw [Nat.cast_zero] at this
  rw [this]
  simp [gridText, ← hrows]


/-! ## Line breaks in the printed text -/

theorem digitChar_ne_newline (d : Nat) (h : d < 10) : Nat.digitChar d ≠ '\n' := by
  interval_cases d <;> decide

theorem toDigitsCore_no_newline :
    ∀ (fuel n : Nat) (ds : List Char), (∀ c ∈ ds, c ≠ '\n') →
      ∀ c ∈ Nat.toDigitsCore 10 fuel n ds, c ≠ '\n' := by
  intro fuel
  induction fuel with
  | zero => intro n ds h; simpa [Nat.toDigitsCore] using h
  | succ fuel ih =>
    intro n ds h
    have hd : ∀ c ∈ Nat.digitChar (n % 10) :: ds, c ≠ '\n' := by
      intro c hc
      rcases List.mem_cons.1 hc with rfl | hc
      · exact digitChar_ne_newline _ (Nat.mod_lt _ (by decide))
      · exact h c hc
    rw [Nat.toDigitsCore]
    split_ifs
    · exact hd
    · exact ih _ _ hd

theorem nat_toString_no_newline (n : Nat) : ∀ c ∈ (toString n).data, c ≠ '\n' := by
  show ∀ c ∈ (Nat.repr n).data, c ≠ '\n'
  unfold Nat.repr Nat.toDigits
  exact toDigitsCore_no_newline _ _ _ (by simp)

theorem int_toString_no_newline (v : Int) : ∀ c ∈ (toString v).data, c ≠ '\n' := by
  cases v with
  | ofNat n =>
    show ∀ c ∈ (toString n).data, c ≠ '\n'
    exact nat_toString_no_newline n
  | negSucc n =>
    show ∀ c ∈ ("-" ++ toString (n + 1)).data, c ≠ '\n'
    intro c hc
    rw [String.data_append, List.mem_append] at hc
    rcases hc with hc | hc
    · have : c = '-' := by simpa using hc
      subst this; decide
    · exact nat_toString_no_newline _ c hc

theorem count_newline_cell (v : Int) :
    ("[" ++ toString v ++ "] ").data.count '\n' = 0 := by
  rw [List.count_eq_zero]
  intro hmem
  simp only [String.data_append, List.mem_append] at hmem
  rcases hmem with (h | h) | h
  · revert h; decide
  · exact int_toString_no_newline v _ h rfl
  · revert h; decide

theorem count_newline_join (l : List String) :
    (String.join l).data.count '\n' = (l.map fun s => s.data.count '\n').sum := by
  induction l with
  | nil => rfl
  | cons a l ih => rw [join_cons, String.data_append, List.count_append, ih]; simp

theorem count_newline_rowText (ln : List Int) : (rowText ln).data.count '\n' = 1 := by
  unfold rowText
  rw [String.data_append, List.count_append, count_newline_join, List.map_map]
  have : (List.map ((fun s : String => s.data.count '\n') ∘
      fun v : Int => "[" ++ toString v ++ "] ") ln).sum = 0 := by
    apply List.sum_eq_zero
    intro x hx
    obtain ⟨v, -, rfl⟩ := List.mem_map.1 hx
    exact count_newline_cell v
  rw [this]
  rfl

theorem count_newline_gridText (g : Grid) : (gridText g).data.count '\n' = g.length + 1 := by
  unfold gridText
  rw [String.data_append, List.count_append, count_newline_join, List.map_map]
  have : (List.map ((fun s : String => s.data.count '\n') ∘ rowText) g).sum = g.length := by
    induction g with
    | nil => rfl
    | cons a g ih =>
      rw [List.map_cons, List.sum_cons, ih]
      simp only [Function.comp, count_newline_rowText, List.length_cons]
      omega
  rw [this]
  rfl


/-! ## Facts used by several of the results below -/

theorem create_square_cells (N : Nat) (log : MemLog) :
    (create_square (N : Int) log).1.cells = List.replicate N (List.replicate N 0) := by
  rw [create_square_eq, Int.toNat_natCast]

/-- Closed form of `fill_square` on a freshly created grid. -/
theorem fill_square_created {N : Nat} (hN : 0 < N) (fuel : Nat) (log : MemLog) :
    fill_square (fuel + 2) (create_square (N : Int) log).1.cells (N : Int) =
      Run.done (closedForm N) := by
  rw [create_square_cells]
  exact fill_square_zero hN fuel

theorem fill_square_created_unique {N : Nat} (hN : 0 < N) (fuel : Nat) (log : MemLog)
    (g : Grid) (h : fill_square fuel (create_square (N : Int) log).1.cells (N : Int) = Run.done g) :
    g = closedForm N := by
  have h1 := fill_square_fuel_add _ _ _ _ h 2
  rw [fill_square_created hN fuel log] at h1
  exact (Run.done.inj h1).symm

theorem readCell_closedForm {N r c : Nat} (hr : r < N) (hc : c < N) :
    readCell (closedForm N) (r : Int) (c : Int) = some ((orderOf N r c + 1 : Nat) : Int) :=
  readCell_tabulate _ hr hc

theorem closedForm_length (N : Nat) : (closedForm N).length = N := by
  simp [closedForm, tabulate]

theorem closedForm_row_length (N : Nat) : ∀ ln ∈ closedForm N, ln.length = N := by
  intro ln h
  simp only [closedForm, tabulate, List.mem_map, List.mem_range] at h
  obtain ⟨r, -, rfl⟩ := h
  simp

theorem eachValueOnce_closedForm (N : Nat) : EachValueOnce N (closedForm N) := by
  intro v h1 h2
  obtain ⟨m, rfl⟩ : ∃ m : Nat, v = (m : Int) + 1 := ⟨(v - 1).toNat, by omega⟩
  have hm : m < N * N := by
    have : ((m : Int) + 1) ≤ ((N * N : Nat) : Int) := by push_cast; exact h2
    omega
  have hN : 0 < N := by
    rcases Nat.eq_zero_or_pos N with h | h
    · subst h; simp at hm
    · exact h
  refine ⟨(posRow N m, posCol N m), ⟨posRow_lt hN m, posCol_lt hN m, ?_⟩, ?_⟩
  · rw [readCell_closedForm (posRow_lt hN m) (posCol_lt hN m), orderOf_pos hm]
    simp
  · rintro ⟨r, c⟩ ⟨hr, hc, hread⟩
    simp only at hr hc hread
    rw [readCell_closedForm hr hc] at hread
    have he : orderOf N r c = m := by
      have := Option.some.inj hread
      omega
    rw [← he, posRow_orderOf hr hc, posCol_orderOf hc]

theorem main_eq {N : Nat} (hN : 0 < N) (fuel : Nat) :
    main (fuel + 2) (N : Int) =
      Run.done
        { stdout := "Enter square size: " ++ gridText (closedForm N),
          mem := MemEvent.malloc 0 (N : Int) ::
            ((List.range N).map fun i => MemEvent.calloc (1 + i) (N : Int)) ++
            (List.range N).map fun i => MemEvent.free (1 + i) } := by
  unfold main
  simp only [fill_square_created hN fuel,
    print_square_eq _ N (closedForm_length N) (closedForm_row_length N)]
  have hfree := free_loop_eq (create_square (N : Int) []).1 N 0 (create_square (N : Int) []).2
    (by rw [create_square_eq]; simp)
  unfold free_square
  rw [Int.toNat_natCast, hfree, create_square_eq]
  simp only [Int.toNat_natCast, List.length_nil, Nat.zero_add, List.nil_append, List.drop_zero,
    List.map_take, List.map_map, List.cons_append, Run.done.injEq, Effects.mk.injEq, true_and,
    List.cons.injEq, List.append_cancel_left_eq]
  rw [List.take_of_length_le (by simp)]
  rfl


/-! ## Results for the claims of the specification -/

/-- C1, evaluated at N = 3: `fill_square` on the fresh 3×3 grid ends with the
magic constant 15 as every row sum, but with column sums 18, 12, 15, diagonal
sum 15 and anti-diagonal sum 24, so the column and anti-diagonal sums do not
equal N·(N²+1)/2. -/
theorem fill_square_three_sums :
    ∃ g, fill_square 2 (create_square 3 []).1.cells 3 = Run.done g ∧
      magicConstant 3 = 15 ∧
      [rowSum g 0, rowSum g 1, rowSum g 2] = [15, 15, 15] ∧
      [colSum g 0, colSum g 1, colSum g 2] = [18, 12, 15] ∧
      diagSum g = 15 ∧ antiDiagSum g = 24 :=
  ⟨[[6, 1, 8], [3, 7, 5], [9, 4, 2]], by decide, by decide, by decide, by decide, by decide,
    by decide⟩

/-- C2: for every positive odd N, `fill_square` on the fresh N×N grid finishes
with a grid in which every integer of [1, N²] is held by exactly one cell and
every cell holds a value of [1, N²], so no cell holds 0. -/
theorem fill_square_each_value_once (N : Nat) (hodd : N % 2 = 1) (fuel : Nat) (log : MemLog) :
    ∃ g, fill_square (fuel + 2) (create_square (N : Int) log).1.cells (N : Int) = Run.done g ∧
      EachValueOnce N g ∧
      ∀ r c : Nat, r < N → c < N →
        ∃ v : Int, readCell g (r : Int) (c : Int) = some v ∧ 1 ≤ v ∧ v ≤ (N : Int) * (N : Int) := by
  have hN : 0 < N := by omega
  refine ⟨closedForm N, fill_square_created hN fuel log, eachValueOnce_closedForm N, ?_⟩
  intro r c hr hc
  refine ⟨_, readCell_closedForm hr hc, by omega, ?_⟩
  have := orderOf_lt (r := r) hc
  have h2 : ((orderOf N r c + 1 : Nat) : Int) ≤ ((N * N : Nat) : Int) := by omega
  simpa using h2

/-- Instance of `fill_square_each_value_once` at N = 3. -/
theorem fill_square_each_value_once_witness :
    3 % 2 = 1 ∧
    ∃ g, fill_square (0 + 2) (create_square ((3 : Nat) : Int) []).1.cells ((3 : Nat) : Int)
        = Run.done g ∧
      EachValueOnce 3 g ∧
      ∀ r c : Nat, r < 3 → c < 3 →
        ∃ v : Int, readCell g (r : Int) (c : Int) = some v ∧ 1 ≤ v ∧
          v ≤ ((3 : Nat) : Int) * ((3 : Nat) : Int) :=
  ⟨by decide, fill_square_each_value_once 3 (by decide) 0 []⟩

/-- C3, evaluated: for N = 3 `fill_square` on the fresh grid finishes with the
rows [6,1,8], [3,7,5], [9,4,2], which is not the grid [8,1,6], [3,5,7], [4,9,2]. -/
theorem fill_square_three_rows (fuel : Nat) (log : MemLog) :
    fill_square (fuel + 2) (create_square 3 log).1.cells 3 =
        Run.done [[6, 1, 8], [3, 7, 5], [9, 4, 2]] ∧
      fill_square (fuel + 2) (create_square 3 log).1.cells 3 ≠
        Run.done [[8, 1, 6], [3, 5, 7], [4, 9, 2]] := by
  have h : fill_square (fuel + 2) (create_square 3 log).1.cells 3 =
      Run.done [[6, 1, 8], [3, 7, 5], [9, 4, 2]] :=
    fill_square_created (N := 3) (by decide) fuel log
  refine ⟨h, ?_⟩
  rw [h]
  decide

/-- C4: for N = 1 `fill_square` on the fresh 1×1 grid finishes, under every
positive step bound, with the single cell holding 1. -/
theorem fill_square_one (fuel : Nat) (log : MemLog) :
    fill_square (fuel + 1) (create_square 1 log).1.cells 1 = Run.done [[1]] := by
  have hc : (create_square 1 log).1.cells = [[0]] := create_square_cells 1 log
  rw [hc]
  rfl

/-- C5 as stated fails at N = 4: `main` does not reject the even size, it
fills the 4×4 grid and prints it. -/
theorem main_four_prints :
    main 2 4 = Run.done
      { stdout := "Enter square size: [11] [8] [1] [14] \n[7] [4] [13] [10] \n" ++
          "[3] [16] [9] [6] \n[15] [12] [5] [2] \n\n",
        mem := [MemEvent.malloc 0 4, MemEvent.calloc 1 4, MemEvent.calloc 2 4,
          MemEvent.calloc 3 4, MemEvent.calloc 4 4, MemEvent.free 1, MemEvent.free 2,
          MemEvent.free 3, MemEvent.free 4] } := by
  decide

/-- C5 amended: for every even N > 0 `main` does not reject N; it creates the
grid, `fill_square` fills it, and the filled grid is printed after the prompt. -/
theorem main_even_runs (N : Nat) (hpos : 0 < N) (_heven : N % 2 = 0) (fuel : Nat) :
    fill_square (fuel + 2) (create_square (N : Int) []).1.cells (N : Int) =
        Run.done (closedForm N) ∧
      ∃ log, main (fuel + 2) (N : Int) =
        Run.done { stdout := "Enter square size: " ++ gridText (closedForm N), mem := log } := by
  exact ⟨fill_square_created hpos fuel [], _, main_eq hpos fuel⟩

/-- Instance of `main_even_runs` at N = 2. -/
theorem main_even_runs_witness :
    0 < 2 ∧ 2 % 2 = 0 ∧
      fill_square (0 + 2) (create_square ((2 : Nat) : Int) []).1.cells ((2 : Nat) : Int) =
        Run.done (closedForm 2) ∧
      ∃ log, main (0 + 2) ((2 : Nat) : Int) =
        Run.done { stdout := "Enter square size: " ++ gridText (closedForm 2), mem := log } :=
  ⟨by decide, by decide, main_even_runs 2 (by decide) (by decide) 0⟩

/-- C6 as stated fails at N = 0: `create_square` raises no error, it calls
`malloc` and returns a grid, and `main` goes on to print. -/
theorem create_square_zero_allocates :
    create_square 0 [] = ({ base := 0, rows := [], cells := [] }, [MemEvent.malloc 0 0]) ∧
      main 0 0 = Run.done { stdout := "Enter square size: \n", mem := [MemEvent.malloc 0 0] } := by
  decide

/-- C6 amended: for every size N ≤ 0 `create_square` raises no error; it makes
the `malloc` call for the row pointers, allocates no row, and returns a grid
with no rows. -/
theorem create_square_nonpos (n : Int) (h : n ≤ 0) (log : MemLog) :
    create_square n log =
      ({ base := log.length, rows := [], cells := [] },
       log ++ [MemEvent.malloc log.length n]) := by
  have h0 : n.toNat = 0 := Int.toNat_eq_zero.2 h
  rw [create_square_eq, h0]
  rfl

/-- Instance of `create_square_nonpos` at N = -1. -/
theorem create_square_nonpos_witness :
    (-1 : Int) ≤ 0 ∧
      create_square (-1) [] =
        ({ base := ([] : MemLog).length, rows := [], cells := [] },
         [] ++ [MemEvent.malloc ([] : MemLog).length (-1)]) :=
  ⟨by decide, create_square_nonpos (-1) (by decide) []⟩

/-- C7: for every N > 0 every run of `fill_square` on a fresh N×N grid with a
step bound of at least 2 finishes, and any two finished runs, whatever their
step bounds and whatever was allocated before, end with the same grid. -/
theorem fill_square_deterministic (N : Nat) (hN : 0 < N) :
    (∀ (fuel : Nat) (log : MemLog),
        ∃ g, fill_square (fuel + 2) (create_square (N : Int) log).1.cells (N : Int) = Run.done g) ∧
      ∀ (fuel1 fuel2 : Nat) (log1 log2 : MemLog) (g1 g2 : Grid),
        fill_square fuel1 (create_square (N : Int) log1).1.cells (N : Int) = Run.done g1 →
        fill_square fuel2 (create_square (N : Int) log2).1.cells (N : Int) = Run.done g2 →
        g1 = g2 := by
  refine ⟨fun fuel log => ⟨_, fill_square_created hN fuel log⟩, ?_⟩
  intro fuel1 fuel2 log1 log2 g1 g2 h1 h2
  rw [fill_square_created_unique hN fuel1 log1 g1 h1,
    fill_square_created_unique hN fuel2 log2 g2 h2]

/-- Instance of `fill_square_deterministic` at N = 3. -/
theorem fill_square_deterministic_witness :
    0 < 3 ∧
    ((∀ (fuel : Nat) (log : MemLog),
        ∃ g, fill_square (fuel + 2) (create_square ((3 : Nat) : Int) log).1.cells
          ((3 : Nat) : Int) = Run.done g) ∧
      ∀ (fuel1 fuel2 : Nat) (log1 log2 : MemLog) (g1 g2 : Grid),
        fill_square fuel1 (create_square ((3 : Nat) : Int) log1).1.cells ((3 : Nat) : Int)
          = Run.done g1 →
        fill_square fuel2 (create_square ((3 : Nat) : Int) log2).1.cells ((3 : Nat) : Int)
          = Run.done g2 →
        g1 = g2) :=
  ⟨by decide, fill_square_deterministic 3 (by decide)⟩

/-- C8: for every size N > 0 `create_square` returns a grid of exactly N rows,
each of exactly N cells, every cell 0. -/
theorem create_square_zero_filled (N : Nat) (_hN : 0 < N) (log : MemLog) :
    (create_square (N : Int) log).1.cells.length = N ∧
      ∀ ln ∈ (create_square (N : Int) log).1.cells, ln.length = N ∧ ∀ v ∈ ln, v = 0 := by
  rw [create_square_cells]
  refine ⟨List.length_replicate _ _, ?_⟩
  intro ln hln
  rw [List.eq_of_mem_replicate hln]
  exact ⟨List.length_replicate _ _, fun v hv => List.eq_of_mem_replicate hv⟩

/-- Instance of `create_square_zero_filled` at N = 2. -/
theorem create_square_zero_filled_witness :
    0 < 2 ∧
    ((create_square ((2 : Nat) : Int) []).1.cells.length = 2 ∧
      ∀ ln ∈ (create_square ((2 : Nat) : Int) []).1.cells, ln.length = 2 ∧ ∀ v ∈ ln, v = 0) :=
  ⟨by decide, create_square_zero_filled 2 (by decide) []⟩

/-- C9: for every N ≥ 0 and every N×N grid, `print_square` writes the rows in
order, each cell as `[value] ` and each row followed by a line break, then one
more line break; the text holds N + 1 line breaks. -/
theorem print_square_text (N : Nat) (g : Grid) (hrows : g.length = N)
    (hcols : ∀ ln ∈ g, ln.length = N) :
    print_square g (N : Int) = Run.done (gridText g) ∧
      (gridText g).data.count '\n' = N + 1 := by
  refine ⟨print_square_eq g N hrows hcols, ?_⟩
  rw [count_newline_gridText, hrows]

/-- Instance of `print_square_text` on the grid with rows [1,-2] and [3,4]. -/
theorem print_square_text_witness :
    ([[1, -2], [3, 4]] : Grid).length = 2 ∧
    (∀ ln ∈ ([[1, -2], [3, 4]] : Grid), ln.length = 2) ∧
    print_square [[1, -2], [3, 4]] ((2 : Nat) : Int) = Run.done (gridText [[1, -2], [3, 4]]) ∧
      (gridText [[1, -2], [3, 4]]).data.count '\n' = 2 + 1 :=
  ⟨rfl, by decide, print_square_text 2 [[1, -2], [3, 4]] rfl (by decide)⟩

/-- C10, evaluated: after `free_square` on the grid made by `create_square`,
every row block has been freed once, and block 0, which holds the row
pointers, has not been freed. -/
theorem free_square_keeps_pointer_block (N : Nat) :
    (create_square (N : Int) []).1.base = 0 ∧
    ∃ log, free_square (create_square (N : Int) []).1 (N : Int) (create_square (N : Int) []).2
        = Run.done log ∧
      (∀ b ∈ (create_square (N : Int) []).1.rows, log.count (MemEvent.free b) = 1) ∧
      log.count (MemEvent.free 0) = 0 := by
  have hrows : (create_square (N : Int) []).1.rows = (List.range N).map fun i => 1 + i := by
    rw [create_square_eq, Int.toNat_natCast]
    simp
  have hlog : (create_square (N : Int) []).2 =
      MemEvent.malloc 0 (N : Int) :: (List.range N).map fun i => MemEvent.calloc (1 + i) (N : Int) := by
    rw [create_square_eq, Int.toNat_natCast]
    simp
  have hfree := free_loop_eq (create_square (N : Int) []).1 N 0 (create_square (N : Int) []).2
    (by rw [hrows]; simp)
  have hcount : ∀ b : Nat,
      (MemEvent.malloc 0 (N : Int) ::
        ((List.range N).map fun i => MemEvent.calloc (1 + i) (N : Int)) ++
        ((List.range N).map fun i => 1 + i).map MemEvent.free).count (MemEvent.free b) =
      ((List.range N).map fun i => 1 + i).count b := by
    intro b
    have hinj : Function.Injective MemEvent.free := fun x y h => MemEvent.free.inj h
    have hc : ((List.range N).map fun i => MemEvent.calloc (1 + i) (N : Int)).count
        (MemEvent.free b) = 0 := by
      rw [List.count_eq_zero]
      intro hmem
      obtain ⟨i, -, hi⟩ := List.mem_map.1 hmem
      cases hi
    have hne : MemEvent.free b ≠ MemEvent.malloc 0 (N : Int) := by intro h; cases h
    rw [List.cons_append, List.count_cons_of_ne hne, List.count_append, hc,
      List.count_map_of_injective _ _ hinj, Nat.zero_add]
  refine ⟨by rw [create_square_eq]; rfl,
    MemEvent.malloc 0 (N : Int) ::
        ((List.range N).map fun i => MemEvent.calloc (1 + i) (N : Int)) ++
        ((List.range N).map fun i => 1 + i).map MemEvent.free, ?_, ?_, ?_⟩
  · unfold free_square
    rw [Int.toNat_natCast, hfree, hlog, hrows, List.drop_zero,
      List.take_of_length_le (by simp)]
  · intro b hb
    rw [hrows] at hb
    rw [hcount b]
    apply List.count_eq_one_of_mem _ hb
    exact List.Nodup.map (fun x y h => by omega) (List.nodup_range N)
  · rw [hcount 0, List.count_eq_zero]
    intro hmem
    obtain ⟨i, -, hi⟩ := List.mem_map.1 hmem
    omega


/-! ## The recorded fill agrees with the fill -/

theorem scan_log_result (arr : Grid) (n column : Int) :
    ∀ (fuel : Nat) (row : Int), (scan_log arr n column fuel row).2 = scan arr n column fuel row := by
  intro fuel
  induction fuel with
  | zero => intro row; rfl
  | succ fuel ih =>
    intro row
    rw [scan_log, scan]
    cases readCell arr row column with
    | none => rfl
    | some v =>
      by_cases hv : v ≠ 0
      · simp only [if_pos hv]
        exact ih _
      · simp only [if_neg hv]

theorem fill_loop_log_result (n : Int) (fuel : Nat) :
    ∀ (count : Nat) (i : Int) (arr : Grid) (row column : Int),
      (fill_loop_log n fuel count i arr row column).2 = fill_loop n fuel count i arr row column := by
  intro count
  induction count with
  | zero => intro i arr row column; rfl
  | succ count ih =>
    intro i arr row column
    rw [fill_loop_log, fill_loop]
    simp only [scan_log_result]
    cases scan arr n (fix_column_index column n) fuel (fix_row_index row n) with
    | timeout => rfl
    | fault => rfl
    | done row2 =>
      simp only
      cases writeCell arr row2 (fix_column_index column n) i with
      | none => rfl
      | some arr1 => exact ih _ _ _ _

theorem fill_square_log_result (fuel : Nat) (arr : Grid) (n : Int) :
    (fill_square_log fuel arr n).2 = fill_square fuel arr n :=
  fill_loop_log_result _ _ _ _ _ _ _

/-! ## The recorded fill of the fresh grid -/

theorem rowCycle_below {N k : Nat} (hk : k + 1 < N) :
    (rowCycle N (k + 1) 0 + 1) % N = rowCycle N k 0 := by
  have e1 : rowCycle N (k + 1) 0 = N - (k + 1) := by
    have hN : 0 < N := by omega
    rw [rowCycle_eq hk hN]
    split_ifs <;> first | contradiction | omega
  have e2 : rowCycle N k 0 = if k = 0 then 0 else N - k := by
    have hN : 0 < N := by omega
    rw [rowCycle_eq (show k < N by omega) hN]
    split_ifs <;> omega
  rw [e1, e2, mod_of_lt_two_mul (by omega)]
  split_ifs <;> omega

theorem cursor_row_exact {N m : Nat} (hN : 0 < N) (hm : m < N * N) {row column : Int}
    (h : Cursor N m row column) :
    (¬ (0 < m ∧ m % N = 0) ∧ fix_row_index row (N : Int) = (posRow N m : Int)) ∨
    ((0 < m ∧ m % N = 0) ∧
      fix_row_index row (N : Int) = (((posRow N m + 1) % N : Nat) : Int) ∧
      orderOf N ((posRow N m + 1) % N) (posCol N m) + N = m ∧
      fix_row_index ((((posRow N m + 1) % N : Nat) : Int) - 1) (N : Int) = (posRow N m : Int)) := by
  rcases h with ⟨rfl, rfl, -⟩ | ⟨hm0, rfl, -⟩
  · left
    rw [posRow_zero]
    simp [fix_row_index]
  · obtain ⟨p, rfl⟩ : ∃ p, m = p + 1 := ⟨m - 1, by omega⟩
    simp only [Nat.add_sub_cancel]
    have hrow : fix_row_index ((posRow N p : Int) - 1) (N : Int)
        = (rowCycle N (p / N) (p % N + 1) : Int) := fix_row_index_rowCycle hN _ _
    rcases succ_div_mod hN p with ⟨-, hd, hmod⟩ | ⟨hj, hd, hmod⟩
    · left
      refine ⟨by omega, ?_⟩
      rw [hrow]
      unfold posRow
      rw [hd, hmod]
    · right
      have hk : p / N + 1 < N := by
        rw [← hd]; exact Nat.div_lt_of_lt_mul hm
      have hR : rowCycle N (p / N) (p % N + 1) = rowCycle N (p / N) 0 := by
        unfold rowCycle
        rw [hj, Nat.add_mod_right]; rfl
      have hpos : posRow N (p + 1) = rowCycle N (p / N + 1) 0 := by
        unfold posRow
        rw [hd, hmod]
      have hbelow : (posRow N (p + 1) + 1) % N = rowCycle N (p / N) 0 := by
        rw [hpos]
        exact rowCycle_below hk
      rw [hbelow]
      refine ⟨⟨by omega, hmod⟩, ?_, ?_, ?_⟩
      · rw [hrow, hR]
      · have hc : colShift N (posCol N (p + 1)) = 0 := by
          unfold posCol
          rw [hmod]
          exact colShift_posCol hN
        unfold orderOf
        rw [hc, rowCycle_rowCycle (by omega) hN]
        have := Nat.div_add_mod p N
        have h2 : N * (p / N) = p / N * N := Nat.mul_comm _ _
        omega
      · rw [fix_row_index_rowCycle hN, hpos]
        unfold rowCycle
        congr 3

theorem scan_log_free {N m : Nat} {R C : Nat} (hR : R < N) (hC : C < N)
    (h : ¬ orderOf N R C < m) (fuel : Nat) :
    scan_log (stage N m) (N : Int) (C : Int) (fuel + 1) (R : Int) =
      ([Access.read (R : Int) (C : Int) (some 0)], Run.done (R : Int)) := by
  rw [scan_log, readCell_stage m hR hC, if_neg h]
  simp

theorem scan_log_occupied {N m : Nat} {R C : Nat} (hR : R < N) (hC : C < N)
    (h : orderOf N R C < m) (fuel : Nat) :
    scan_log (stage N m) (N : Int) (C : Int) (fuel + 1) (R : Int) =
      (Access.read (R : Int) (C : Int) (some ((orderOf N R C + 1 : Nat) : Int)) ::
          (scan_log (stage N m) (N : Int) (C : Int) fuel
            (fix_row_index ((R : Int) - 1) (N : Int))).1,
        (scan_log (stage N m) (N : Int) (C : Int) fuel
            (fix_row_index ((R : Int) - 1) (N : Int))).2) := by
  rw [scan_log, readCell_stage m hR hC, if_pos h]
  have : (((orderOf N R C + 1 : Nat) : Int)) ≠ 0 := by omega
  simp only [ne_eq, this, not_false_eq_true, if_true]

theorem scan_log_stage {N m : Nat} (hN : 0 < N) (hm : m < N * N) {row column : Int}
    (h : Cursor N m row column) (fuel : Nat) :
    scan_log (stage N m) (N : Int) (posCol N m : Int) (fuel + 2) (fix_row_index row (N : Int)) =
      ((if 0 < m ∧ m % N = 0 then
          [Access.read (((posRow N m + 1) % N : Nat) : Int) (posCol N m : Int)
            (some ((m + 1 - N : Nat) : Int))]
        else []) ++ [Access.read (posRow N m : Int) (posCol N m : Int) (some 0)],
       Run.done (posRow N m : Int)) := by
  have hfree : ¬ orderOf N (posRow N m) (posCol N m) < m := by
    rw [orderOf_pos hm]; omega
  rcases cursor_row_exact hN hm h with ⟨h0, h1⟩ | ⟨h0, h1, h2, h3⟩
  · rw [h1, if_neg h0]
    exact scan_log_free (posRow_lt hN m) (posCol_lt hN m) hfree (fuel + 1)
  · rw [h1, if_pos h0,
      scan_log_occupied (Nat.mod_lt _ hN) (posCol_lt hN m) (by omega), h3,
      scan_log_free (posRow_lt hN m) (posCol_lt hN m) hfree fuel]
    have hv : orderOf N ((posRow N m + 1) % N) (posCol N m) + 1 = m + 1 - N := by omega
    rw [hv]
    rfl

theorem fill_loop_log_step {N m : Nat} (hN : 0 < N) (hm : m < N * N) {row column : Int}
    (h : Cursor N m row column) (fuel count : Nat) :
    fill_loop_log (N : Int) (fuel + 2) (count + 1) ((m : Int) + 1) (stage N m) row column =
      (passOf N m ::
        (fill_loop_log (N : Int) (fuel + 2) count ((m : Int) + 1 + 1) (stage N (m + 1))
          ((posRow N m : Int) - 1) ((posCol N m : Int) + 1)).1,
       (fill_loop_log (N : Int) (fuel + 2) count ((m : Int) + 1 + 1) (stage N (m + 1))
          ((posRow N m : Int) - 1) ((posCol N m : Int) + 1)).2) := by
  have hfree : ¬ orderOf N (posRow N m) (posCol N m) < m := by
    rw [orderOf_pos hm]; omega
  rw [fill_loop_log]
  simp only [cursor_column hN h, scan_log_stage hN hm h fuel, writeCell_stage hN hm,
    readCell_stage m (posRow_lt hN m) (posCol_lt hN m), if_neg hfree, passOf, List.append_assoc,
    List.singleton_append]

theorem fill_loop_log_stage {N : Nat} (hN : 0 < N) (fuel : Nat) :
    ∀ (count m : Nat) (row column : Int), m + count = N * N → Cursor N m row column →
      fill_loop_log (N : Int) (fuel + 2) count ((m : Int) + 1) (stage N m) row column =
        ((List.range' m count).map (passOf N), Run.done (stage N (N * N))) := by
  intro count
  induction count with
  | zero =>
    intro m row column hmc _
    have : m = N * N := by omega
    subst this
    rw [fill_loop_log]
    rfl
  | succ count ih =>
    intro m row column hmc hcur
    rw [fill_loop_log_step hN (by omega) hcur]
    have h := ih (m + 1) ((posRow N m : Int) - 1) ((posCol N m : Int) + 1) (by omega)
      (Or.inr ⟨by omega, by simp, by simp⟩)
    rw [Nat.cast_add, Nat.cast_one] at h
    rw [h]
    rfl

/-- Accesses and result of `fill_square` on the zero-filled grid. -/
theorem fill_square_log_zero {N : Nat} (hN : 0 < N) (fuel : Nat) :
    fill_square_log (fuel + 2) (List.replicate N (List.replicate N 0)) (N : Int) =
      ((List.range (N * N)).map (passOf N), Run.done (closedForm N)) := by
  unfold fill_square_log
  have h := fill_loop_log_stage hN fuel (N * N) 0 0 (Int.tdiv (N : Int) 2) (by omega)
    (Or.inl ⟨rfl, rfl, rfl⟩)
  rw [stage_full, stage_zero] at h
  have hc : ((N : Int) * (N : Int)).toNat = N * N := by
    rw [← Int.natCast_mul]; exact Int.toNat_natCast _
  rw [hc, List.range_eq_range']
  simpa using h

/-- Accesses and result of `fill_square` on a freshly created grid. -/
theorem fill_square_log_created {N : Nat} (hN : 0 < N) (fuel : Nat) (log : MemLog) :
    fill_square_log (fuel + 2) (create_square (N : Int) log).1.cells (N : Int) =
      ((List.range (N * N)).map (passOf N), Run.done (closedForm N)) := by
  rw [create_square_cells]
  exact fill_square_log_zero hN fuel

/-! ## Reads and writes on an arbitrary grid -/

theorem readCell_isSome {N : Nat} {g : Grid} (hg : IsSquare N g) {row column : Int}
    (hr0 : 0 ≤ row) (hr1 : row < N) (hc0 : 0 ≤ column) (hc1 : column < N) :
    ∃ v, readCell g row column = some v := by
  obtain ⟨hlen, hcols⟩ := hg
  have h1 : ¬ (row < 0 ∨ column < 0) := by omega
  have hr : row.toNat < g.length := by omega
  have hc : column.toNat < (g[row.toNat]).length := by
    rw [hcols _ (List.getElem_mem _)]; omega
  refine ⟨(g[row.toNat])[column.toNat], ?_⟩
  simp [readCell, h1, List.getElem?_eq_getElem hr, List.getElem?_eq_getElem hc]

theorem writeCell_isSome {N : Nat} {g : Grid} (hg : IsSquare N g) {row column : Int}
    (hr0 : 0 ≤ row) (hr1 : row < N) (hc0 : 0 ≤ column) (hc1 : column < N) (v : Int) :
    ∃ g1, writeCell g row column v = some g1 ∧ IsSquare N g1 := by
  obtain ⟨hlen, hcols⟩ := hg
  have h1 : ¬ (row < 0 ∨ column < 0) := by omega
  have hr : row.toNat < g.length := by omega
  have hc : column.toNat < (g[row.toNat]).length := by
    rw [hcols _ (List.getElem_mem _)]; omega
  refine ⟨g.set row.toNat ((g[row.toNat]).set column.toNat v), ?_, ?_, ?_⟩
  · simp [writeCell, h1, List.getElem?_eq_getElem hr, hc]
  · simp [hlen]
  · intro ln hln
    rcases List.mem_or_eq_of_mem_set hln with h | h
    · exact hcols _ h
    · rw [h, List.length_set]
      exact hcols _ (List.getElem_mem _)

theorem readCell_writeCell {g g1 : Grid} {row0 column0 : Int} {x : Int}
    (hw : writeCell g row0 column0 x = some g1) (row column : Int) :
    readCell g1 row column =
      if row = row0 ∧ column = column0 then some x else readCell g row column := by
  unfold writeCell at hw
  by_cases h0 : row0 < 0 ∨ column0 < 0
  · rw [if_pos h0] at hw; cases hw
  rw [if_neg h0] at hw
  cases hrow : g.get? row0.toNat with
  | none => rw [hrow] at hw; cases hw
  | some ln0 =>
    rw [hrow] at hw
    simp only at hw
    by_cases hc : column0.toNat < ln0.length
    · rw [if_pos hc] at hw
      have hg1 := (Option.some.inj hw).symm
      subst hg1
      rw [List.get?_eq_getElem?] at hrow
      unfold readCell
      by_cases h1 : row < 0 ∨ column < 0
      · have hne : ¬ (row = row0 ∧ column = column0) := by omega
        rw [if_pos h1, if_pos h1, if_neg hne]
      rw [if_neg h1, if_neg h1]
      simp only [List.get?_eq_getElem?, List.getElem?_set]
      by_cases hr : row0.toNat = row.toNat
      · have hrr : row = row0 := by omega
        have hlt : row0.toNat < g.length := by
          rcases List.getElem?_eq_some_iff.1 hrow with ⟨h, -⟩
          exact h
        rw [if_pos hr, if_pos hlt]
        simp only
        rw [← hr, hrow]
        simp only [List.getElem?_set]
        by_cases hcc : column0.toNat = column.toNat
        · have : column = column0 := by omega
          rw [if_pos hcc, if_pos hc, if_pos ⟨hrr, this⟩]
        · have : ¬ (row = row0 ∧ column = column0) := by omega
          rw [if_neg hcc, if_neg this]
      · have : ¬ (row = row0 ∧ column = column0) := by omega
        rw [if_neg hr, if_neg this]
    · rw [if_neg hc] at hw; cases hw

/-! ## Properties of one scan on an arbitrary grid -/

theorem fix_row_index_range {n row : Int} (h1 : row < n) (hn : 0 < n) :
    0 ≤ fix_row_index row n ∧ fix_row_index row n < n := by
  unfold fix_row_index
  split_ifs <;> omega

theorem fix_column_index_range {n column : Int} (h0 : 0 ≤ column) (hn : 0 < n) :
    0 ≤ fix_column_index column n ∧ fix_column_index column n < n := by
  unfold fix_column_index
  split_ifs <;> omega

/-- Every access of a scan is a read in range, and a scan that exits does so
at a row in range whose cell holds 0. -/
theorem scan_log_spec (arr : Grid) {n : Int} (column : Int) (hn : 0 < n) :
    ∀ (fuel : Nat) (row : Int), 0 ≤ row → row < n →
      (∀ a ∈ (scan_log arr n column fuel row).1,
        a.isWrite = false ∧ 0 ≤ a.row ∧ a.row < n ∧ a.column = column) ∧
      (∀ row2, (scan_log arr n column fuel row).2 = Run.done row2 →
        0 ≤ row2 ∧ row2 < n ∧ readCell arr row2 column = some 0) := by
  intro fuel
  induction fuel with
  | zero =>
    intro row _ _
    refine ⟨fun a ha => ?_, fun row2 h => ?_⟩
    · simp [scan_log] at ha
    · simp [scan_log] at h
  | succ fuel ih =>
    intro row h0 h1
    rw [scan_log]
    cases hread : readCell arr row column with
    | none =>
      refine ⟨fun a ha => ?_, fun row2 h => ?_⟩
      · simp only [List.mem_singleton] at ha
        subst ha
        exact ⟨rfl, h0, h1, rfl⟩
      · simp at h
    | some v =>
      simp only
      by_cases hv : v ≠ 0
      · rw [if_pos hv]
        have hfix := fix_row_index_range (show row - 1 < n by omega) hn
        obtain ⟨ih1, ih2⟩ := ih (fix_row_index (row - 1) n) hfix.1 hfix.2
        refine ⟨fun a ha => ?_, fun row2 h => ih2 row2 h⟩
        rcases List.mem_cons.1 ha with rfl | ha
        · exact ⟨rfl, h0, h1, rfl⟩
        · exact ih1 a ha
      · rw [if_neg hv]
        have hv0 : v = 0 := by
          by_contra hne
          exact hv hne
        refine ⟨fun a ha => ?_, fun row2 h => ?_⟩
        · simp only [List.mem_singleton] at ha
          subst ha
          exact ⟨rfl, h0, h1, rfl⟩
        · have := Run.done.inj h
          subst this
          exact ⟨h0, h1, by rw [hread, hv0]⟩

/-! ## Properties of the whole loop on an arbitrary grid -/

/-- Accesses of the loop on any grid: all are in range, every assignment goes
to a cell holding 0, and a run that finishes has made one assignment in each of
its passes and has left every non-zero cell as it was. -/
theorem fill_loop_log_spec {n : Int} (hn : 0 < n) (fuel : Nat) :
    ∀ (count : Nat) (i : Int) (arr : Grid) (row column : Int), row < n → 0 ≤ column →
      (∀ pass ∈ (fill_loop_log n fuel count i arr row column).1, ∀ a ∈ pass,
        0 ≤ a.row ∧ a.row < n ∧ 0 ≤ a.column ∧ a.column < n) ∧
      (∀ pass ∈ (fill_loop_log n fuel count i arr row column).1, ∀ r c held v,
        Access.write r c held v ∈ pass → held = some 0) ∧
      (∀ g1, (fill_loop_log n fuel count i arr row column).2 = Run.done g1 →
        (fill_loop_log n fuel count i arr row column).1.length = count ∧
        (∀ pass ∈ (fill_loop_log n fuel count i arr row column).1, placements pass = 1) ∧
        ∀ r c v, readCell arr r c = some v → v ≠ 0 → readCell g1 r c = some v) := by
  intro count
  induction count with
  | zero =>
    intro i arr row column _ _
    refine ⟨fun pass hp => ?_, fun pass hp => ?_, fun g1 h => ⟨rfl, fun pass hp => ?_, ?_⟩⟩
    · simp [fill_loop_log] at hp
    · simp [fill_loop_log] at hp
    · simp [fill_loop_log] at hp
    · have := Run.done.inj h
      subst this
      exact fun r c v h _ => h
  | succ count ih =>
    intro i arr row column hrow hcol
    have hr := fix_row_index_range hrow hn
    have hc := fix_column_index_range hcol hn
    obtain ⟨hs1, hs2⟩ := scan_log_spec arr (fix_column_index column n) hn fuel
      (fix_row_index row n) hr.1 hr.2
    have hreads : ∀ a ∈ (scan_log arr n (fix_column_index column n) fuel
        (fix_row_index row n)).1, 0 ≤ a.row ∧ a.row < n ∧ 0 ≤ a.column ∧ a.column < n := by
      intro a ha
      obtain ⟨-, h1, h2, h3⟩ := hs1 a ha
      exact ⟨h1, h2, by rw [h3]; exact hc.1, by rw [h3]; exact hc.2⟩
    have hnowrite : ∀ r c held v, Access.write r c held v ∉ (scan_log arr n
        (fix_column_index column n) fuel (fix_row_index row n)).1 := by
      intro r c held v hmem
      have := (hs1 _ hmem).1
      simp [Access.isWrite] at this
    rw [fill_loop_log]
    simp only
    cases hres : (scan_log arr n (fix_column_index column n) fuel (fix_row_index row n)).2 with
    | timeout =>
      simp only [List.mem_singleton, forall_eq]
      exact ⟨hreads, fun r c held v hmem => absurd hmem (hnowrite r c held v),
        fun g1 h => by cases h⟩
    | fault =>
      simp only [List.mem_singleton, forall_eq]
      exact ⟨hreads, fun r c held v hmem => absurd hmem (hnowrite r c held v),
        fun g1 h => by cases h⟩
    | done row2 =>
      obtain ⟨h20, h21, hzero⟩ := hs2 row2 hres
      simp only
      have hpass1 : ∀ a ∈ (scan_log arr n (fix_column_index column n) fuel
          (fix_row_index row n)).1 ++
          [Access.write row2 (fix_column_index column n)
            (readCell arr row2 (fix_column_index column n)) i],
          0 ≤ a.row ∧ a.row < n ∧ 0 ≤ a.column ∧ a.column < n := by
        intro a ha
        rcases List.mem_append.1 ha with ha | ha
        · exact hreads a ha
        · simp only [List.mem_singleton] at ha
          subst ha
          exact ⟨h20, h21, hc.1, hc.2⟩
      have hpass2 : ∀ r c held v, Access.write r c held v ∈
          (scan_log arr n (fix_column_index column n) fuel (fix_row_index row n)).1 ++
          [Access.write row2 (fix_column_index column n)
            (readCell arr row2 (fix_column_index column n)) i] → held = some 0 := by
        intro r c held v ha
        rcases List.mem_append.1 ha with ha | ha
        · exact absurd ha (hnowrite r c held v)
        · simp only [List.mem_singleton, Access.write.injEq] at ha
          rw [ha.2.2.1, hzero]
      have hpass3 : placements
          ((scan_log arr n (fix_column_index column n) fuel (fix_row_index row n)).1 ++
          [Access.write row2 (fix_column_index column n)
            (readCell arr row2 (fix_column_index column n)) i]) = 1 := by
        unfold placements
        rw [List.countP_append, List.countP_eq_zero.2 (fun a ha => by
          rw [(hs1 a ha).1]; simp)]
        rfl
      cases hw : writeCell arr row2 (fix_column_index column n) i with
      | none =>
        simp only [List.mem_singleton, forall_eq]
        exact ⟨hpass1, hpass2, fun g1 h => by cases h⟩
      | some arr1 =>
        simp only
        obtain ⟨ih1, ih2, ih3⟩ := ih (i + 1) arr1 (row2 - 1) (fix_column_index column n + 1)
          (by omega) (by omega)
        refine ⟨fun pass hp => ?_, fun pass hp => ?_, fun g1 h => ?_⟩
        · rcases List.mem_cons.1 hp with rfl | hp
          · exact hpass1
          · exact ih1 pass hp
        · rcases List.mem_cons.1 hp with rfl | hp
          · exact hpass2
          · exact ih2 pass hp
        · obtain ⟨hl, hp1, hframe⟩ := ih3 g1 h
          refine ⟨by rw [List.length_cons, hl], fun pass hp => ?_, fun r c v hv hv0 => ?_⟩
          · rcases List.mem_cons.1 hp with rfl | hp
            · exact hpass3
            · exact hp1 pass hp
          · apply hframe r c v _ hv0
            rw [readCell_writeCell hw]
            have hne : ¬ (r = row2 ∧ c = fix_column_index column n) := by
              rintro ⟨rfl, rfl⟩
              rw [hzero] at hv
              exact hv0 (Option.some.inj hv).symm
            rw [if_neg hne, hv]

/-- On a grid of `N` rows of `N` cells the loop never makes an access outside
the grid. -/
theorem fill_loop_no_fault {N : Nat} (hN : 0 < N) (fuel : Nat) :
    ∀ (count : Nat) (i : Int) (arr : Grid) (row column : Int), IsSquare N arr →
      row < (N : Int) → 0 ≤ column →
      fill_loop (N : Int) fuel count i arr row column ≠ Run.fault := by
  have hn : (0 : Int) < (N : Int) := by omega
  intro count
  induction count with
  | zero => intro i arr row column _ _ _; simp [fill_loop]
  | succ count ih =>
    intro i arr row column hsq hrow hcol
    have hr := fix_row_index_range hrow hn
    have hc := fix_column_index_range hcol hn
    rw [fill_loop]
    cases hres : scan arr (N : Int) (fix_column_index column N) fuel (fix_row_index row N) with
    | timeout => simp
    | fault =>
      exfalso
      have hscan : ∀ (fuel : Nat) (row : Int), 0 ≤ row → row < (N : Int) →
          scan arr (N : Int) (fix_column_index column N) fuel row ≠ Run.fault := by
        intro fuel
        induction fuel with
        | zero => intro row _ _; simp [scan]
        | succ fuel ihf =>
          intro row h0 h1
          obtain ⟨v, hv⟩ := readCell_isSome hsq h0 h1 hc.1 hc.2
          rw [scan, hv]
          simp only
          split_ifs
          · exact ihf _ (fix_row_index_range (by omega) hn).1
              (fix_row_index_range (by omega) hn).2
          · simp
      exact hscan fuel _ hr.1 hr.2 hres
    | done row2 =>
      simp only
      have hspec := (scan_log_spec arr (fix_column_index column N) hn fuel
        (fix_row_index row N) hr.1 hr.2).2 row2 (by rw [scan_log_result]; exact hres)
      obtain ⟨arr1, hw, hsq1⟩ := writeCell_isSome hsq hspec.1 hspec.2.1 hc.1 hc.2 i
      rw [hw]
      exact ih _ _ _ _ hsq1 (by omega) (by omega)

/-! ## A scan in a column without a free cell -/

theorem scan_log_blocked (arr : Grid) {n column : Int} (hn : 0 < n)
    (hcol : ∀ row, 0 ≤ row → row < n → ∃ v, readCell arr row column = some v ∧ v ≠ 0) :
    ∀ (fuel : Nat) (row : Int), 0 ≤ row → row < n →
      (scan_log arr n column fuel row).2 = Run.timeout := by
  intro fuel
  induction fuel with
  | zero => intro row _ _; rfl
  | succ fuel ih =>
    intro row h0 h1
    obtain ⟨v, hv, hv0⟩ := hcol row h0 h1
    rw [scan_log, hv]
    simp only [if_pos hv0]
    exact ih _ (fix_row_index_range (by omega) hn).1 (fix_row_index_range (by omega) hn).2

/-! ## Row and column sums of the closed form -/

theorem list_sum_map_range (f : Nat → Int) (n : Nat) :
    ((List.range n).map f).sum = ∑ i ∈ Finset.range n, f i := by
  induction n with
  | zero => rfl
  | succ n ih =>
    rw [List.range_succ, List.map_append, List.sum_append, ih, Finset.sum_range_succ]
    simp

theorem rowCycle_comm (N r j : Nat) : rowCycle N r j = rowCycle N j r := by
  unfold rowCycle
  rw [Nat.add_comm]

theorem sum_rowCycle_left {N j : Nat} (hj : j < N) :
    ∑ r ∈ Finset.range N, rowCycle N r j = ∑ k ∈ Finset.range N, k := by
  have hN : 0 < N := by omega
  apply Finset.sum_nbij' (fun r => rowCycle N r j) (fun k => rowCycle N k j)
  · intro a _
    exact Finset.mem_range.2 (rowCycle_lt hN _ _)
  · intro a _
    exact Finset.mem_range.2 (rowCycle_lt hN _ _)
  · intro a ha
    exact rowCycle_rowCycle (Finset.mem_range.1 ha) hj
  · intro a ha
    exact rowCycle_rowCycle (Finset.mem_range.1 ha) hj
  · intro a _
    rfl

theorem sum_rowCycle_right {N r : Nat} (hr : r < N) :
    ∑ j ∈ Finset.range N, rowCycle N r j = ∑ k ∈ Finset.range N, k := by
  rw [← sum_rowCycle_left hr]
  exact Finset.sum_congr rfl fun j _ => rowCycle_comm N r j

theorem sum_orderOf_row {N r : Nat} (hr : r < N) :
    ∑ c ∈ Finset.range N, (orderOf N r c + 1) =
      (∑ k ∈ Finset.range N, k) * N + (∑ k ∈ Finset.range N, k) + N := by
  have hN : 0 < N := by omega
  have h1 : ∑ c ∈ Finset.range N, (orderOf N r c + 1) =
      ∑ j ∈ Finset.range N, (rowCycle N r j * N + j + 1) := by
    apply Finset.sum_nbij' (colShift N) (fun j => (N / 2 + j) % N)
    · intro a ha
      exact Finset.mem_range.2 (colShift_lt (Finset.mem_range.1 ha))
    · intro a _
      exact Finset.mem_range.2 (Nat.mod_lt _ hN)
    · intro a ha
      exact posCol_colShift (Finset.mem_range.1 ha)
    · intro a ha
      exact colShift_posCol (Finset.mem_range.1 ha)
    · intro a _
      rfl
  rw [h1, Finset.sum_add_distrib, Finset.sum_add_distrib, ← Finset.sum_mul,
    sum_rowCycle_right hr]
  simp

theorem sum_orderOf_column {N c : Nat} (hc : c < N) :
    ∑ r ∈ Finset.range N, (orderOf N r c + 1) =
      (∑ k ∈ Finset.range N, k) * N + N * (colShift N c + 1) := by
  unfold orderOf
  rw [Finset.sum_add_distrib, Finset.sum_add_distrib, ← Finset.sum_mul,
    sum_rowCycle_left (colShift_lt hc)]
  simp only [Finset.sum_const, Finset.card_range, smul_eq_mul]
  ring

theorem rowSum_closedForm {N r : Nat} (hr : r < N) :
    rowSum (closedForm N) r = ((∑ c ∈ Finset.range N, (orderOf N r c + 1) : Nat) : Int) := by
  have hrow : (closedForm N).getD r [] =
      (List.range N).map fun c => ((orderOf N r c + 1 : Nat) : Int) := by
    simp [closedForm, tabulate, List.getD_eq_getElem?_getD, List.getElem?_range hr]
  rw [rowSum, hrow, list_sum_map_range]
  push_cast
  rfl

theorem colSum_closedForm {N c : Nat} (hc : c < N) :
    colSum (closedForm N) c = ((∑ r ∈ Finset.range N, (orderOf N r c + 1) : Nat) : Int) := by
  have hcol : ((closedForm N).map fun ln => ln.getD c 0) =
      (List.range N).map fun r => ((orderOf N r c + 1 : Nat) : Int) := by
    simp [closedForm, tabulate, List.getD_eq_getElem?_getD, List.getElem?_range hc]
  rw [colSum, hcol, list_sum_map_range]
  push_cast
  rfl

theorem rowSum_closedForm_magic {N r : Nat} (hr : r < N) :
    rowSum (closedForm N) r = magicConstant N := by
  have h2 : 2 * ∑ c ∈ Finset.range N, (orderOf N r c + 1) = N * (N * N + 1) := by
    rw [sum_orderOf_row hr]
    have hT := Finset.sum_range_id_mul_two N
    obtain ⟨n, rfl⟩ : ∃ n, N = n + 1 := ⟨N - 1, by omega⟩
    simp only [Nat.add_sub_cancel] at hT
    generalize ∑ k ∈ Finset.range (n + 1), k = T at hT
    nlinarith [hT]
  rw [rowSum_closedForm hr]
  unfold magicConstant
  have h3 : (N : Int) * ((N : Int) * (N : Int) + 1) =
      2 * ((∑ c ∈ Finset.range N, (orderOf N r c + 1) : Nat) : Int) := by
    rw [← Int.natCast_mul, ← Int.natCast_one, ← Int.natCast_add, ← Int.natCast_mul, ← h2]
    push_cast
    rfl
  rw [h3, Int.mul_ediv_cancel_left _ (by decide)]

/-! ## The closed form in integer residues -/

theorem rowCycle_int {N : Nat} (hN : 0 < N) (k j : Nat) :
    ((rowCycle N k j : Nat) : Int) = (-((k : Int) + (j : Int))) % (N : Int) := by
  have hs : (k + j) % N < N := Nat.mod_lt _ hN
  unfold rowCycle
  rw [Int.ofNat_emod, Nat.cast_sub hs.le, Int.ofNat_emod, Nat.cast_add]
  have h : (N : Int) - ((k : Int) + (j : Int)) % (N : Int) =
      -((k : Int) + (j : Int)) + (N : Int) * (((k : Int) + (j : Int)) / (N : Int) + 1) := by
    rw [Int.emod_def]; ring
  rw [h, Int.add_mul_emod_self_left]

theorem colShift_int (N c : Nat) :
    ((colShift N c : Nat) : Int) = ((c : Int) - (N : Int) / 2) % (N : Int) := by
  unfold colShift
  rw [Int.ofNat_emod, Nat.cast_add, Nat.cast_sub (Nat.div_le_self N 2), Int.ofNat_ediv]
  have h : (c : Int) + ((N : Int) - (N : Int) / ((2 : Nat) : Int)) =
      (c : Int) - (N : Int) / 2 + (N : Int) := by
    push_cast; ring
  rw [h, Int.add_emod_self]

theorem posCol_int (N j : Nat) :
    (((N / 2 + j) % N : Nat) : Int) = ((N : Int) / 2 + (j : Int)) % (N : Int) := by
  push_cast
  rfl

/-! ## The passes on the fresh grid -/

theorem multiple_iff {N m : Nat} (hN : 0 < N) (hm : m < N * N) :
    (∃ k, 1 ≤ k ∧ k < N ∧ m + 1 = k * N + 1) ↔ (0 < m ∧ m % N = 0) := by
  constructor
  · rintro ⟨k, hk1, -, hk⟩
    have hmk : m = k * N := by omega
    subst hmk
    exact ⟨Nat.mul_pos (by omega) hN, Nat.mul_mod_left _ _⟩
  · rintro ⟨h0, h1⟩
    have hdm := Nat.div_add_mod m N
    rw [h1, Nat.add_zero] at hdm
    refine ⟨m / N, ?_, Nat.div_lt_of_lt_mul hm, ?_⟩
    · rcases Nat.eq_zero_or_pos (m / N) with h | h
      · rw [h, Nat.mul_zero] at hdm; omega
      · exact h
    · rw [Nat.mul_comm, hdm]

theorem upwardSteps_passOf {N : Nat} (m : Nat) :
    upwardSteps (passOf N m) = if 0 < m ∧ m % N = 0 then 1 else 0 := by
  unfold upwardSteps passOf
  by_cases h : 0 < m ∧ m % N = 0
  · have hle : N ≤ m := Nat.le_of_dvd h.1 (Nat.dvd_of_mod_eq_zero h.2)
    have hne : ((m + 1 - N : Nat) : Int) ≠ 0 := by omega
    simp [h, Access.isCollision, hne]
  · simp [h, Access.isCollision]

theorem placements_passOf (N m : Nat) : placements (passOf N m) = 1 := by
  unfold placements passOf
  split_ifs <;> simp [Access.isWrite]

theorem getLast_passOf (N m : Nat) :
    (passOf N m).getLast? =
      some (Access.write (posRow N m : Int) (posCol N m : Int) (some 0) ((m : Int) + 1)) := by
  unfold passOf
  split_ifs <;> simp

theorem head_passOf {N m : Nat} (h : ¬ (0 < m ∧ m % N = 0)) :
    (passOf N m).head? = some (Access.read (posRow N m : Int) (posCol N m : Int) (some 0)) := by
  unfold passOf
  rw [if_neg h]
  rfl

theorem getD_passes {N m : Nat} (hm : m < N * N) :
    ((List.range (N * N)).map (passOf N)).getD m [] = passOf N m := by
  simp [List.getD_eq_getElem?_getD, List.getElem?_range hm]

/-! ## Results for the further claims of the specification -/

/-- C11: for every positive odd N, `fill_square` on the fresh N×N grid
finishes; the loop body runs exactly N² times, each pass makes exactly one
assignment, to a cell holding 0, and in each pass the body of the collision
scan runs fewer than N times. -/
theorem fill_square_terminates (N : Nat) (hodd : N % 2 = 1) (fuel : Nat) (log : MemLog) :
    ∃ passes g,
      fill_square_log (fuel + 2) (create_square (N : Int) log).1.cells (N : Int) =
        (passes, Run.done g) ∧
      fill_square (fuel + 2) (create_square (N : Int) log).1.cells (N : Int) = Run.done g ∧
      passes.length = N * N ∧
      ∀ pass ∈ passes, upwardSteps pass < N ∧ placements pass = 1 ∧
        ∃ r c v, pass.getLast? = some (Access.write r c (some 0) v) := by
  have hN : 0 < N := by omega
  refine ⟨_, _, fill_square_log_created hN fuel log, fill_square_created hN fuel log,
    by simp, ?_⟩
  intro pass hp
  obtain ⟨m, hm, rfl⟩ := List.mem_map.1 hp
  have hm : m < N * N := List.mem_range.1 hm
  refine ⟨?_, placements_passOf N m, _, _, _, getLast_passOf N m⟩
  rw [upwardSteps_passOf]
  split_ifs with h
  · by_contra hlt
    have h1 : N = 1 := by omega
    subst h1
    omega
  · exact hN

/-- Instance of `fill_square_terminates` at N = 3. -/
theorem fill_square_terminates_witness :
    3 % 2 = 1 ∧
    ∃ passes g,
      fill_square_log (0 + 2) (create_square ((3 : Nat) : Int) []).1.cells ((3 : Nat) : Int) =
        (passes, Run.done g) ∧
      fill_square (0 + 2) (create_square ((3 : Nat) : Int) []).1.cells ((3 : Nat) : Int)
        = Run.done g ∧
      passes.length = 3 * 3 ∧
      ∀ pass ∈ passes, upwardSteps pass < 3 ∧ placements pass = 1 ∧
        ∃ r c v, pass.getLast? = some (Access.write r c (some 0) v) :=
  ⟨by decide, fill_square_terminates 3 (by decide) 0 []⟩

/-- C12: for every N ≥ 1 and every N×N grid, whatever its contents and
whatever the step bound, every read and every write of `arr[row][column]` made
by `fill_square` has 0 ≤ row < N and 0 ≤ column < N, and the run never leaves
the grid. -/
theorem fill_square_accesses_in_range (N : Nat) (hN : 1 ≤ N) (g : Grid) (hg : IsSquare N g)
    (fuel : Nat) :
    (∀ pass ∈ (fill_square_log fuel g (N : Int)).1, ∀ a ∈ pass,
        0 ≤ a.row ∧ a.row < (N : Int) ∧ 0 ≤ a.column ∧ a.column < (N : Int)) ∧
      fill_square fuel g (N : Int) ≠ Run.fault := by
  have hn : (0 : Int) < (N : Int) := by omega
  have hcol : (0 : Int) ≤ Int.tdiv (N : Int) 2 := by
    rw [show Int.tdiv (N : Int) 2 = ((N / 2 : Nat) : Int) from (Int.ofNat_tdiv N 2).symm]
    omega
  exact ⟨(fill_loop_log_spec hn fuel _ 1 g 0 _ hn hcol).1,
    fill_loop_no_fault hN fuel _ 1 g 0 _ hg hn hcol⟩

/-- Instance of `fill_square_accesses_in_range` on the grid with rows [0,2]
and [3,0]. -/
theorem fill_square_accesses_in_range_witness :
    1 ≤ 2 ∧ IsSquare 2 [[0, 2], [3, 0]] ∧
    ((∀ pass ∈ (fill_square_log 3 [[0, 2], [3, 0]] ((2 : Nat) : Int)).1, ∀ a ∈ pass,
        0 ≤ a.row ∧ a.row < ((2 : Nat) : Int) ∧ 0 ≤ a.column ∧ a.column < ((2 : Nat) : Int)) ∧
      fill_square 3 [[0, 2], [3, 0]] ((2 : Nat) : Int) ≠ Run.fault) :=
  ⟨by decide, ⟨rfl, by decide⟩,
    fill_square_accesses_in_range 2 (by decide) [[0, 2], [3, 0]] ⟨rfl, by decide⟩ 3⟩

/-- C13: for every odd N ≥ 3, every row of the grid that `fill_square` leaves
on the fresh N×N grid sums to N·(N²+1)/2. -/
theorem fill_square_row_sums (N : Nat) (_hodd : N % 2 = 1) (h3 : 3 ≤ N) (fuel : Nat)
    (log : MemLog) :
    ∃ g, fill_square (fuel + 2) (create_square (N : Int) log).1.cells (N : Int) = Run.done g ∧
      ∀ r, r < N → rowSum g r = magicConstant N := by
  exact ⟨closedForm N, fill_square_created (by omega) fuel log,
    fun r hr => rowSum_closedForm_magic hr⟩

/-- Instance of `fill_square_row_sums` at N = 3. -/
theorem fill_square_row_sums_witness :
    3 % 2 = 1 ∧ 3 ≤ 3 ∧
    ∃ g, fill_square (0 + 2) (create_square ((3 : Nat) : Int) []).1.cells ((3 : Nat) : Int)
        = Run.done g ∧
      ∀ r, r < 3 → rowSum g r = magicConstant 3 :=
  ⟨by decide, by decide, fill_square_row_sums 3 (by decide) (by decide) 0 []⟩

/-- C14: for every even N > 0, `fill_square` on the fresh N×N grid finishes
without a fault, and the grid it leaves is not a magic square. -/
theorem fill_square_even_not_magic (N : Nat) (hpos : 0 < N) (heven : N % 2 = 0) (fuel : Nat)
    (log : MemLog) :
    ∃ g, fill_square (fuel + 2) (create_square (N : Int) log).1.cells (N : Int) = Run.done g ∧
      ¬ IsMagic N g := by
  refine ⟨closedForm N, fill_square_created hpos fuel log, ?_⟩
  rintro ⟨s, -, hcols, -, -⟩
  have h2 : 2 ≤ N := by omega
  have hc0 : (N / 2 + 0) % N < N := Nat.mod_lt _ hpos
  have hc1 : (N / 2 + 1) % N < N := Nat.mod_lt _ hpos
  have e0 := hcols _ hc0
  have e1 := hcols _ hc1
  rw [colSum_closedForm hc0, sum_orderOf_column hc0, colShift_posCol (show 0 < N by omega)] at e0
  rw [colSum_closedForm hc1, sum_orderOf_column hc1, colShift_posCol (show 1 < N by omega)] at e1
  rw [← e1] at e0
  have e2 := Int.ofNat.inj e0
  omega

/-- Instance of `fill_square_even_not_magic` at N = 2. -/
theorem fill_square_even_not_magic_witness :
    0 < 2 ∧ 2 % 2 = 0 ∧
    ∃ g, fill_square (0 + 2) (create_square ((2 : Nat) : Int) []).1.cells ((2 : Nat) : Int)
        = Run.done g ∧
      ¬ IsMagic 2 g :=
  ⟨by decide, by decide, fill_square_even_not_magic 2 (by decide) (by decide) 0 []⟩

/-- C15, evaluated at N = 3: when 4 is to be placed, the value 3 sits in cell
(1, 0) and its up-right target (0, 1) holds 1; `fill_square` then reads (0, 1),
moves up to (2, 1) and stores 4 there, while the cell one row below the cell
of 3, that is (2, 0), receives 9. -/
theorem fill_square_collision_moves_up :
    ∃ passes g, fill_square_log 2 (create_square 3 []).1.cells 3 = (passes, Run.done g) ∧
      readCell g 1 0 = some 3 ∧ readCell g 0 1 = some 1 ∧
      passes.getD 3 [] =
        [Access.read 0 1 (some 1), Access.read 2 1 (some 0), Access.write 2 1 (some 0) 4] ∧
      readCell g 2 1 = some 4 ∧ readCell g 2 0 = some 9 :=
  ⟨(List.range 9).map (passOf 3), [[6, 1, 8], [3, 7, 5], [9, 4, 2]],
    by decide, by decide, by decide, by decide, by decide, by decide⟩

/-- C16: for every N ≥ 1, `fill_square` on the fresh N×N grid finishes with
the value k·N + j + 1 in row (-(k + j)) mod N and column (N/2 + j) mod N for
all j, k < N; cell (r, c) holds ((-(r + j)) mod N)·N + j + 1 with
j = (c - N/2) mod N; every integer of [1, N²] is held by exactly one cell; and
the value 1 is in the middle of the top row. -/
theorem fill_square_closed_form (N : Nat) (hN : 1 ≤ N) (fuel : Nat) (log : MemLog) :
    ∃ g, fill_square (fuel + 2) (create_square (N : Int) log).1.cells (N : Int) = Run.done g ∧
      (∀ j k : Nat, j < N → k < N →
        readCell g ((-((k : Int) + (j : Int))) % (N : Int))
            (((N : Int) / 2 + (j : Int)) % (N : Int)) =
          some ((k : Int) * (N : Int) + (j : Int) + 1)) ∧
      (∀ r c : Nat, r < N → c < N →
        readCell g (r : Int) (c : Int) =
          some ((-((r : Int) + ((c : Int) - (N : Int) / 2) % (N : Int))) % (N : Int) * (N : Int)
            + ((c : Int) - (N : Int) / 2) % (N : Int) + 1)) ∧
      EachValueOnce N g ∧
      readCell g 0 ((N : Int) / 2) = some 1 := by
  have hpos : 0 < N := hN
  refine ⟨closedForm N, fill_square_created hpos fuel log, ?_, ?_,
    eachValueOnce_closedForm N, ?_⟩
  · intro j k hj hk
    rw [← rowCycle_int hpos, ← posCol_int,
      readCell_closedForm (rowCycle_lt hpos k j) (Nat.mod_lt _ hpos)]
    unfold orderOf
    rw [colShift_posCol hj, rowCycle_rowCycle hk hj]
    push_cast
    rfl
  · intro r c hr hc
    rw [readCell_closedForm hr hc]
    unfold orderOf
    rw [← colShift_int, ← rowCycle_int hpos]
    push_cast
    rfl
  · have h := readCell_closedForm (N := N) (r := posRow N 0) (c := posCol N 0)
      (posRow_lt hpos 0) (posCol_lt hpos 0)
    rw [orderOf_pos (Nat.mul_pos hpos hpos), posRow_zero, posCol_zero hpos] at h
    simpa using h

/-- Instance of `fill_square_closed_form` at N = 3. -/
theorem fill_square_closed_form_witness :
    1 ≤ 3 ∧
    ∃ g, fill_square (0 + 2) (create_square ((3 : Nat) : Int) []).1.cells ((3 : Nat) : Int)
        = Run.done g ∧
      (∀ j k : Nat, j < 3 → k < 3 →
        readCell g ((-((k : Int) + (j : Int))) % ((3 : Nat) : Int))
            ((((3 : Nat) : Int) / 2 + (j : Int)) % ((3 : Nat) : Int)) =
          some ((k : Int) * ((3 : Nat) : Int) + (j : Int) + 1)) ∧
      (∀ r c : Nat, r < 3 → c < 3 →
        readCell g (r : Int) (c : Int) =
          some ((-((r : Int) + ((c : Int) - ((3 : Nat) : Int) / 2) % ((3 : Nat) : Int)))
              % ((3 : Nat) : Int) * ((3 : Nat) : Int)
            + ((c : Int) - ((3 : Nat) : Int) / 2) % ((3 : Nat) : Int) + 1)) ∧
      EachValueOnce 3 g ∧
      readCell g 0 (((3 : Nat) : Int) / 2) = some 1 :=
  ⟨by decide, fill_square_closed_form 3 (by decide) 0 []⟩

/-- C17: for every N ≥ 1, in the run of `fill_square` on the fresh N×N grid
the pass that places the value m + 1 stores it into a cell holding 0; when
m + 1 = k·N + 1 with 1 ≤ k < N the body of the collision scan runs exactly
once in that pass, and for every other value it runs zero times and the first
cell read is already free. -/
theorem fill_square_scan_steps (N : Nat) (hN : 1 ≤ N) (fuel : Nat) (log : MemLog) :
    ∃ passes g,
      fill_square_log (fuel + 2) (create_square (N : Int) log).1.cells (N : Int) =
        (passes, Run.done g) ∧
      passes.length = N * N ∧
      ∀ m, m < N * N →
        (∃ r c, (passes.getD m []).getLast? =
          some (Access.write r c (some 0) ((m : Int) + 1))) ∧
        ((∃ k, 1 ≤ k ∧ k < N ∧ m + 1 = k * N + 1) → upwardSteps (passes.getD m []) = 1) ∧
        ((¬ ∃ k, 1 ≤ k ∧ k < N ∧ m + 1 = k * N + 1) →
          upwardSteps (passes.getD m []) = 0 ∧
          ∃ r c, (passes.getD m []).head? = some (Access.read r c (some 0))) := by
  have hpos : 0 < N := hN
  refine ⟨_, _, fill_square_log_created hpos fuel log, by simp, ?_⟩
  intro m hm
  rw [getD_passes hm, upwardSteps_passOf, multiple_iff hpos hm]
  refine ⟨⟨_, _, getLast_passOf N m⟩, fun h => by rw [if_pos h], fun h => ?_⟩
  exact ⟨by rw [if_neg h], _, _, head_passOf h⟩

/-- Instance of `fill_square_scan_steps` at N = 3. -/
theorem fill_square_scan_steps_witness :
    1 ≤ 3 ∧
    ∃ passes g,
      fill_square_log (0 + 2) (create_square ((3 : Nat) : Int) []).1.cells ((3 : Nat) : Int) =
        (passes, Run.done g) ∧
      passes.length = 3 * 3 ∧
      ∀ m, m < 3 * 3 →
        (∃ r c, (passes.getD m []).getLast? =
          some (Access.write r c (some 0) ((m : Int) + 1))) ∧
        ((∃ k, 1 ≤ k ∧ k < 3 ∧ m + 1 = k * 3 + 1) → upwardSteps (passes.getD m []) = 1) ∧
        ((¬ ∃ k, 1 ≤ k ∧ k < 3 ∧ m + 1 = k * 3 + 1) →
          upwardSteps (passes.getD m []) = 0 ∧
          ∃ r c, (passes.getD m []).head? = some (Access.read r c (some 0))) :=
  ⟨by decide, fill_square_scan_steps 3 (by decide) 0 []⟩

/-- C18: for every N ≥ 1, every N×N grid and every step bound, each
assignment made by `fill_square` goes to a cell holding 0 at that moment; and
when the run finishes it has made N² passes with one assignment each, and every
cell that was non-zero before the call holds the same value after it. -/
theorem fill_square_no_overwrite (N : Nat) (hN : 1 ≤ N) (g : Grid) (_hg : IsSquare N g)
    (fuel : Nat) :
    (∀ pass ∈ (fill_square_log fuel g (N : Int)).1, ∀ r c held v,
        Access.write r c held v ∈ pass → held = some 0) ∧
      ∀ g1, fill_square fuel g (N : Int) = Run.done g1 →
        (fill_square_log fuel g (N : Int)).1.length = N * N ∧
        (∀ pass ∈ (fill_square_log fuel g (N : Int)).1, placements pass = 1) ∧
        ∀ r c v, readCell g r c = some v → v ≠ 0 → readCell g1 r c = some v := by
  have hn : (0 : Int) < (N : Int) := by omega
  have hcol : (0 : Int) ≤ Int.tdiv (N : Int) 2 := by
    rw [show Int.tdiv (N : Int) 2 = ((N / 2 : Nat) : Int) from (Int.ofNat_tdiv N 2).symm]
    omega
  have hc : ((N : Int) * (N : Int)).toNat = N * N := by
    rw [← Int.natCast_mul]; exact Int.toNat_natCast _
  obtain ⟨-, h2, h3⟩ := fill_loop_log_spec hn fuel ((N : Int) * (N : Int)).toNat 1 g 0
    (Int.tdiv (N : Int) 2) hn hcol
  refine ⟨h2, fun g1 hdone => ?_⟩
  have := h3 g1 (by rw [← hdone, ← fill_square_log_result]; rfl)
  rw [hc] at this
  exact this

/-- Instance of `fill_square_no_overwrite` on the grid with rows [0,2] and
[3,0]. -/
theorem fill_square_no_overwrite_witness :
    1 ≤ 2 ∧ IsSquare 2 [[0, 2], [3, 0]] ∧
    ((∀ pass ∈ (fill_square_log 3 [[0, 2], [3, 0]] ((2 : Nat) : Int)).1, ∀ r c held v,
        Access.write r c held v ∈ pass → held = some 0) ∧
      ∀ g1, fill_square 3 [[0, 2], [3, 0]] ((2 : Nat) : Int) = Run.done g1 →
        (fill_square_log 3 [[0, 2], [3, 0]] ((2 : Nat) : Int)).1.length = 2 * 2 ∧
        (∀ pass ∈ (fill_square_log 3 [[0, 2], [3, 0]] ((2 : Nat) : Int)).1,
          placements pass = 1) ∧
        ∀ r c v, readCell [[0, 2], [3, 0]] r c = some v → v ≠ 0 → readCell g1 r c = some v) :=
  ⟨by decide, ⟨rfl, by decide⟩,
    fill_square_no_overwrite 2 (by decide) [[0, 2], [3, 0]] ⟨rfl, by decide⟩ 3⟩

/-- C19: for every N ≥ 1, on a grid whose column N/2 has no cell holding 0,
`fill_square` runs out of every step bound in the scan for the first value and
makes no assignment; in particular this is so on the grid left by an earlier
complete fill. -/
theorem fill_square_not_rerunnable (N : Nat) (hN : 1 ≤ N) :
    (∀ g : Grid,
      (∀ r : Nat, r < N → ∃ v, readCell g (r : Int) ((N / 2 : Nat) : Int) = some v ∧ v ≠ 0) →
      ∀ fuel : Nat,
        fill_square fuel g (N : Int) = Run.timeout ∧
        (fill_square_log fuel g (N : Int)).1.length = 1 ∧
        ∀ pass ∈ (fill_square_log fuel g (N : Int)).1, placements pass = 0) ∧
    ∀ (fuel0 : Nat) (log : MemLog) (g : Grid),
      fill_square fuel0 (create_square (N : Int) log).1.cells (N : Int) = Run.done g →
      ∀ fuel : Nat, fill_square fuel g (N : Int) = Run.timeout := by
  have hpos : 0 < N := hN
  have hn : (0 : Int) < (N : Int) := by omega
  have hmid : Int.tdiv (N : Int) 2 = ((N / 2 : Nat) : Int) := (Int.ofNat_tdiv N 2).symm
  have hfixc : fix_column_index ((N / 2 : Nat) : Int) (N : Int) = ((N / 2 : Nat) : Int) := by
    unfold fix_column_index
    split_ifs <;> omega
  have hfixr : fix_row_index 0 (N : Int) = 0 := by simp [fix_row_index]
  have hcount : ((N : Int) * (N : Int)).toNat = (N * N - 1) + 1 := by
    rw [← Int.natCast_mul, Int.toNat_natCast]
    have := Nat.mul_pos hpos hpos
    omega
  have main : ∀ g : Grid,
      (∀ r : Nat, r < N → ∃ v, readCell g (r : Int) ((N / 2 : Nat) : Int) = some v ∧ v ≠ 0) →
      ∀ fuel : Nat,
        fill_square fuel g (N : Int) = Run.timeout ∧
        (fill_square_log fuel g (N : Int)).1.length = 1 ∧
        ∀ pass ∈ (fill_square_log fuel g (N : Int)).1, placements pass = 0 := by
    intro g hcol fuel
    have hcolInt : ∀ row : Int, 0 ≤ row → row < (N : Int) →
        ∃ v, readCell g row ((N / 2 : Nat) : Int) = some v ∧ v ≠ 0 := by
      intro row h0 h1
      have := hcol row.toNat (by omega)
      rwa [Int.toNat_of_nonneg h0] at this
    have hblocked := scan_log_blocked g hn hcolInt fuel 0 (le_refl _) hn
    have hreads := (scan_log_spec g ((N / 2 : Nat) : Int) hn fuel 0 (le_refl _) hn).1
    have hlog : fill_square_log fuel g (N : Int) =
        ([(scan_log g (N : Int) ((N / 2 : Nat) : Int) fuel 0).1], Run.timeout) := by
      unfold fill_square_log
      rw [hcount, fill_loop_log, hmid]
      simp only [hfixc, hfixr, hblocked]
    refine ⟨by rw [← fill_square_log_result, hlog], by rw [hlog]; rfl, ?_⟩
    intro pass hp
    rw [hlog] at hp
    simp only [List.mem_singleton] at hp
    subst hp
    unfold placements
    rw [List.countP_eq_zero]
    intro a ha
    rw [(hreads a ha).1]
    simp
  refine ⟨main, ?_⟩
  intro fuel0 log g hdone fuel
  have hg := fill_square_created_unique hpos fuel0 log g hdone
  subst hg
  refine (main (closedForm N) ?_ fuel).1
  intro r hr
  refine ⟨_, readCell_closedForm hr (Nat.div_lt_self hpos (by decide)), ?_⟩
  omega

/-- Instance of `fill_square_not_rerunnable` at N = 3. -/
theorem fill_square_not_rerunnable_witness :
    1 ≤ 3 ∧
    ((∀ g : Grid,
      (∀ r : Nat, r < 3 → ∃ v, readCell g (r : Int) ((3 / 2 : Nat) : Int) = some v ∧ v ≠ 0) →
      ∀ fuel : Nat,
        fill_square fuel g ((3 : Nat) : Int) = Run.timeout ∧
        (fill_square_log fuel g ((3 : Nat) : Int)).1.length = 1 ∧
        ∀ pass ∈ (fill_square_log fuel g ((3 : Nat) : Int)).1, placements pass = 0) ∧
    ∀ (fuel0 : Nat) (log : MemLog) (g : Grid),
      fill_square fuel0 (create_square ((3 : Nat) : Int) log).1.cells ((3 : Nat) : Int)
        = Run.done g →
      ∀ fuel : Nat, fill_square fuel g ((3 : Nat) : Int) = Run.timeout) :=
  ⟨by decide, fill_square_not_rerunnable 3 (by decide)⟩

end MagicSquare
